import Mathlib

/-!
# Verification of the resvg `usvg-parser` text-lowering core

A shallow embedding of `crates/usvg-parser/src/text.rs` and
`crates/usvg-parser/src/lib.rs` of the resvg repository, together with
theorems settling the specification claims about:

* per-character position resolution (`resolve_positions_list`),
* per-character rotation resolution (`resolve_rotate_list`),
* font-weight cascading (`resolve_font_weight`),
* chunk/span collection (`collect_text_chunks`),
* attribute-value enumeration parsing and `convert_baseline_shift`,
* the input normalizer (`from_data`, `string_from_utf16_bytes`,
  `decompress_svgz` dispatch).

Modelling conventions:

* Rust `String`s holding text content are modelled as `List Char`
  (a string is its sequence of Unicode code points); the UTF-8 byte
  length of a string is the sum of `Char.utf8Size` over its chars.
* Resolved user-space lengths (`f32` in the source) are modelled as
  `Int`.  Every claim under verification is structural (which index
  receives which attribute value, where chunks split, which error is
  returned); no claim depends on real floating-point arithmetic.
* External collaborators that live outside the provided sources
  (the svgtree attribute machinery, `units::resolve_font_size`,
  `units::convert_list`, `shapes::convert`, the style resolver, gzip
  itself, `std`'s UTF-16 validation, the XML parser) are modelled as
  already-resolved fields on the tree nodes or as function parameters,
  exactly at the interface the source uses them.
-/

namespace Resvg

/-! ## Generic list helpers (modelled after the Rust in-place updates) -/

/-- Apply `f` to the element at index `i`; out-of-range indices leave the
list unchanged (the source never indexes out of range). -/
def modifyAt (f : α → α) : List α → Nat → List α
  | [], _ => []
  | a :: as_, 0 => f a :: as_
  | a :: as_, n + 1 => a :: modifyAt f as_ n

/-- Apply `f` to the last element of the list (`last_mut` in the source);
the empty list is unchanged. -/
def modifyLast (f : α → α) : List α → List α
  | [] => []
  | [a] => [f a]
  | a :: b :: as_ => a :: modifyLast f (b :: as_)

theorem modifyAt_length (f : α → α) (l : List α) (i : Nat) :
    (modifyAt f l i).length = l.length := by
  induction l generalizing i with
  | nil => rfl
  | cons a as_ ih =>
    cases i with
    | zero => rfl
    | succ n => simpa [modifyAt] using ih n

theorem modifyLast_append (f : α → α) (l : List α) (a : α) :
    modifyLast f (l ++ [a]) = l ++ [f a] := by
  induction l with
  | nil => rfl
  | cons b bs ih =>
    cases bs with
    | nil => simp [modifyLast]
    | cons c cs => simpa [modifyLast] using ih

/-! ## Data model

Tags of the elements the text subsystem distinguishes (`EId` in the
source restricted to what `text.rs` inspects). -/

inductive Tag where
  | text
  | tspan
  | textPath
  | other
deriving DecidableEq, Repr

/-- `usvg_tree::CharacterPosition`: optional absolute x/y, optional
relative dx/dy for one character. -/
structure CharacterPosition where
  x : Option Int := none
  y : Option Int := none
  dx : Option Int := none
  dy : Option Int := none
deriving DecidableEq, Repr

instance : Inhabited CharacterPosition := ⟨{}⟩

/-- `usvg_tree::TextFlow`: linear or along a path.  The resolved
`TextPath` payload (shared path + start offset) is abstracted to a `Nat`
identity; the claims only distinguish flows, never path geometry. -/
inductive TextFlow where
  | linear
  | path (id : Nat)
deriving DecidableEq, Repr

/-- `usvg_tree::TextSpan`, restricted to the fields the claims are
about: the half-open byte range `[start, stop)` into the owning chunk's
text buffer and the resolved font size.  The remaining style fields
(fill, stroke, decoration, …) are produced by external collaborators
and play no role in any claim. -/
structure TextSpan where
  start : Nat
  stop : Nat
  fontSize : Int
deriving DecidableEq, Repr

/-- `usvg_tree::TextChunk`: anchor point, spans, flow and the
concatenated text buffer (modelled as its code points). -/
structure TextChunk where
  x : Option Int
  y : Option Int
  spans : List TextSpan
  textFlow : TextFlow
  text : List Char
deriving DecidableEq, Repr

/-- The attributes of one XML element that the text subsystem reads.
`x`/`y`/`dx`/`dy` model `units::convert_list` results, `rotate` the
parsed `rotate` number list, `visible` the `is_visible_element(opt)`
check, `fontSize` the `units::resolve_font_size` result, and `flow`
the outcome of `resolve_text_flow` for a `textPath` element (`none`
when the referenced path cannot be resolved). -/
structure ElemData where
  tag : Tag
  x : Option (List Int) := none
  y : Option (List Int) := none
  dx : Option (List Int) := none
  dy : Option (List Int) := none
  rotate : Option (List Int) := none
  visible : Bool := true
  fontSize : Int := 16
  flow : Option Nat := none
deriving DecidableEq, Repr

/-- The XML subtree under (and including) a `<text>` element: element
nodes with children in document order, and text nodes carrying their
code points. -/
inductive XNode where
  | elem : ElemData → List XNode → XNode
  | text : List Char → XNode

/-! ## `count_chars` (text.rs:731) — code points in all text-node
descendants, in document order. -/

mutual

def countCharsNode : XNode → Nat
  | .elem _ cs => countCharsList cs
  | .text s => s.length

def countCharsList : List XNode → Nat
  | [] => 0
  | c :: cs => countCharsNode c + countCharsList cs

end

/-! ## `resolve_positions_list` (text.rs:536)

Walks descendants in document order; at every `text`/`tspan` element
writes each of the four length lists into
`list[offset .. offset + min(len(values), count_chars(element))]`;
advances `offset` at text nodes. -/

/-- Write `vals` (truncated to `cnt` entries) into consecutive
positions starting at `off`, updating one field via `upd`
(the `for i in 0..len` loop body of `push_list!`). -/
def writeField (upd : Int → CharacterPosition → CharacterPosition) :
    List Int → Nat → Nat → List CharacterPosition → List CharacterPosition
  | [], _, _, l => l
  | _, 0, _, l => l
  | v :: vs, n + 1, off, l => writeField upd vs n (off + 1) (modifyAt (upd v) l off)

/-- One `push_list!` invocation: do nothing when `convert_list`
returned `None`, else write the values. -/
def pushList (vals : Option (List Int))
    (upd : Int → CharacterPosition → CharacterPosition)
    (childChars off : Nat) (l : List CharacterPosition) :
    List CharacterPosition :=
  match vals with
  | none => l
  | some vs => writeField upd vs childChars off l

/-- The four `push_list!` invocations for one `text`/`tspan` element. -/
def applyPosAttrs (d : ElemData) (childChars off : Nat)
    (l : List CharacterPosition) : List CharacterPosition :=
  pushList d.dy (fun v p => { p with dy := some v }) childChars off
    (pushList d.dx (fun v p => { p with dx := some v }) childChars off
      (pushList d.y (fun v p => { p with y := some v }) childChars off
        (pushList d.x (fun v p => { p with x := some v }) childChars off l)))

mutual

def posWalkNode : XNode → Nat → List CharacterPosition →
    Nat × List CharacterPosition
  | .text s, off, l => (off + s.length, l)
  | .elem d cs, off, l =>
    let l' := if d.tag = Tag.text ∨ d.tag = Tag.tspan then
        applyPosAttrs d (countCharsList cs) off l
      else l
    posWalkList cs off l'

def posWalkList : List XNode → Nat → List CharacterPosition →
    Nat × List CharacterPosition
  | [], off, l => (off, l)
  | n :: ns, off, l =>
    let r := posWalkNode n off l
    posWalkList ns r.1 r.2

end

/-- `resolve_positions_list`: all-`None` list of length `count_chars`,
then the document-order walk. -/
def resolve_positions_list (root : XNode) : List CharacterPosition :=
  (posWalkNode root 0 (List.replicate (countCharsNode root) {})).2

/-! ## `resolve_rotate_list` (text.rs:592) -/

/-- The per-element assignment loop: for `i in 0 .. cnt`, take
`rotate[i]` when present (updating `last`), else repeat `last`. -/
def rotateApply : List Int → Nat → Nat → Int → List Int → Int × List Int
  | _, 0, _, last, l => (last, l)
  | rotate, n + 1, off, last, l =>
    match rotate with
    | [] => rotateApply [] n (off + 1) last (modifyAt (fun _ => last) l off)
    | a :: rest => rotateApply rest n (off + 1) a (modifyAt (fun _ => a) l off)

mutual

def rotWalkNode : XNode → Nat → Int → List Int → Nat × Int × List Int
  | .text s, off, last, l => (off + s.length, last, l)
  | .elem d cs, off, last, l =>
    match d.rotate with
    | some rotate =>
      let r := rotateApply rotate (countCharsList cs) off last l
      rotWalkList cs off r.1 r.2
    | none => rotWalkList cs off last l

def rotWalkList : List XNode → Nat → Int → List Int → Nat × Int × List Int
  | [], off, last, l => (off, last, l)
  | n :: ns, off, last, l =>
    let r := rotWalkNode n off last l
    rotWalkList ns r.1 r.2.1 r.2.2

end

/-- `resolve_rotate_list`: all-zero list of length `count_chars`, then
the document-order walk threading the `last` seen angle. -/
def resolve_rotate_list (root : XNode) : List Int :=
  (rotWalkNode root 0 0 (List.replicate (countCharsNode root) 0)).2.2

/-! ## `collect_text_chunks` (text.rs:131-340) -/

/-- The mutable iteration state of `collect_text_chunks_impl`. -/
structure IterState where
  charsCount : Nat
  chunkBytesCount : Nat
  splitChunk : Bool
  textFlow : TextFlow
  chunks : List TextChunk
deriving DecidableEq, Repr

/-- Body of the `for c in child.text().chars()` loop (text.rs:284-338).
The second component of the state is `is_new_span`. -/
def processChar (posList : List CharacterPosition) (span : TextSpan)
    (stp : IterState × Bool) (c : Char) : IterState × Bool :=
  let st := stp.1
  let isNewSpan := stp.2
  let charLen := c.utf8Size
  let pos := posList.getD st.charsCount {}
  let isNewChunk := pos.x.isSome || pos.y.isSome || st.splitChunk ||
    st.chunks.isEmpty
  let st := { st with splitChunk := false }
  let st :=
    if isNewChunk then
      { st with
        chunkBytesCount := 0
        chunks := st.chunks ++ [{
          x := pos.x
          y := pos.y
          spans := [{ span with start := 0, stop := charLen }]
          textFlow := st.textFlow
          text := [c] }] }
    else if isNewSpan then
      -- Add this span to the last text chunk.
      { st with chunks := modifyLast (fun chunk =>
          { chunk with
            text := chunk.text ++ [c]
            spans := chunk.spans ++ [{ span with
              start := st.chunkBytesCount
              stop := st.chunkBytesCount + charLen }] }) st.chunks }
    else
      -- Extend the last span.
      { st with chunks := modifyLast (fun chunk =>
          { chunk with
            text := chunk.text ++ [c]
            spans := modifyLast (fun sp => { sp with stop := sp.stop + charLen })
              chunk.spans }) st.chunks }
  ({ st with
      charsCount := st.charsCount + 1
      chunkBytesCount := st.chunkBytesCount + charLen }, false)

/-- Visiting a text-node child of `parent` (text.rs:202-338): skip (but
count) the characters when the parent is not visible or its resolved
font size is not strictly positive; otherwise build the span template
and run the character loop with `is_new_span = true`. -/
def processText (posList : List CharacterPosition) (parent : ElemData)
    (s : List Char) (st : IterState) : IterState :=
  if !parent.visible then
    { st with charsCount := st.charsCount + s.length }
  else if parent.fontSize ≤ 0 then
    -- Skip this span.
    { st with charsCount := st.charsCount + s.length }
  else
    let span : TextSpan := { start := 0, stop := 0, fontSize := parent.fontSize }
    (s.foldl (processChar posList span) (st, true)).1

mutual

/-- One iteration of the `for child in parent.children()` loop of
`collect_text_chunks_impl` (text.rs:165-199). -/
def collectNode (posList : List CharacterPosition) (parent : ElemData)
    (child : XNode) (st : IterState) : IterState :=
  match child with
  | .text s => processText posList parent s st
  | .elem d cs =>
    if d.tag = Tag.textPath then
      if parent.tag ≠ Tag.text then
        -- `textPath` can be set only as a direct `text` element child.
        { st with charsCount := st.charsCount + countCharsList cs }
      else
        match d.flow with
        | none =>
          -- Skip an invalid text path and all its children,
          -- updating the chars count to keep `pos_list` aligned.
          { st with charsCount := st.charsCount + countCharsList cs }
        | some p =>
          let st := { st with textFlow := TextFlow.path p, splitChunk := true }
          let st := collectList posList d cs st
          let st := { st with textFlow := TextFlow.linear }
          -- Next char after `textPath` should be split too.
          { st with splitChunk := true }
    else
      let st := collectList posList d cs st
      { st with textFlow := TextFlow.linear }

def collectList (posList : List CharacterPosition) (parent : ElemData)
    (children : List XNode) (st : IterState) : IterState :=
  match children with
  | [] => st
  | c :: cs => collectList posList parent cs (collectNode posList parent c st)

end

/-- `collect_text_chunks`: run the recursion from the `<text>` element
(given as its data and children) with the fresh iteration state. -/
def collect_text_chunks (d : ElemData) (cs : List XNode)
    (posList : List CharacterPosition) : List TextChunk :=
  (collectList posList d cs
    { charsCount := 0
      chunkBytesCount := 0
      splitChunk := false
      textFlow := TextFlow.linear
      chunks := [] }).chunks

/-! ## `resolve_font_weight` (text.rs:429-475) -/

/-- `bound` (text.rs:430): clamp `val` into `[min, max]`. -/
def bound (lo val hi : Nat) : Nat := Nat.max lo (Nat.min hi val)

/-- One step of the cascade: the `match` on one ancestor's
`font-weight` attribute (`unwrap_or("")` applied by the caller). -/
def fontWeightStep (weight : Nat) (attr : String) : Nat :=
  match attr with
  | "normal" => 400
  | "bold" => 700
  | "100" => 100
  | "200" => 200
  | "300" => 300
  | "400" => 400
  | "500" => 500
  | "600" => 600
  | "700" => 700
  | "800" => 800
  | "900" => 900
  | "bolder" => bound 100 (weight + (if weight = 400 then 300 else 100)) 900
  | "lighter" => bound 100 (weight - (if weight = 400 then 200 else 100)) 900
  | _ => weight

/-- `resolve_font_weight`: `chain` is the node's ancestor chain from
the synthetic document root toward the node itself with the root
skipped (`nodes.iter().rev().skip(1)`), each entry being that
ancestor's raw `font-weight` attribute value. -/
def resolve_font_weight (chain : List (Option String)) : Nat :=
  chain.foldl (fun w a => fontWeightStep w (a.getD "")) 400

/-! ## Attribute-value enumerations (text.rs:14-84, 411-427, 691-729) -/

inductive TextAnchor where
  | start
  | middle
  | end_
deriving DecidableEq, Repr

/-- `FromValue for TextAnchor` (text.rs:14). -/
def parseTextAnchor : String → Option TextAnchor
  | "start" => some .start
  | "middle" => some .middle
  | "end" => some .end_
  | _ => none

inductive AlignmentBaseline where
  | auto
  | baseline
  | beforeEdge
  | textBeforeEdge
  | middle
  | central
  | afterEdge
  | textAfterEdge
  | ideographic
  | alphabetic
  | hanging
  | mathematical
deriving DecidableEq, Repr

/-- `FromValue for AlignmentBaseline` (text.rs:25). -/
def parseAlignmentBaseline : String → Option AlignmentBaseline
  | "auto" => some .auto
  | "baseline" => some .baseline
  | "before-edge" => some .beforeEdge
  | "text-before-edge" => some .textBeforeEdge
  | "middle" => some .middle
  | "central" => some .central
  | "after-edge" => some .afterEdge
  | "text-after-edge" => some .textAfterEdge
  | "ideographic" => some .ideographic
  | "alphabetic" => some .alphabetic
  | "hanging" => some .hanging
  | "mathematical" => some .mathematical
  | _ => none

inductive DominantBaseline where
  | auto
  | useScript
  | noChange
  | resetSize
  | ideographic
  | alphabetic
  | hanging
  | mathematical
  | central
  | middle
  | textAfterEdge
  | textBeforeEdge
deriving DecidableEq, Repr

/-- `FromValue for DominantBaseline` (text.rs:45). -/
def parseDominantBaseline : String → Option DominantBaseline
  | "auto" => some .auto
  | "use-script" => some .useScript
  | "no-change" => some .noChange
  | "reset-size" => some .resetSize
  | "ideographic" => some .ideographic
  | "alphabetic" => some .alphabetic
  | "hanging" => some .hanging
  | "mathematical" => some .mathematical
  | "central" => some .central
  | "middle" => some .middle
  | "text-after-edge" => some .textAfterEdge
  | "text-before-edge" => some .textBeforeEdge
  | _ => none

inductive LengthAdjust where
  | spacing
  | spacingAndGlyphs
deriving DecidableEq, Repr

/-- `FromValue for LengthAdjust` (text.rs:65). -/
def parseLengthAdjust : String → Option LengthAdjust
  | "spacing" => some .spacing
  | "spacingAndGlyphs" => some .spacingAndGlyphs
  | _ => none

inductive FontStyle where
  | normal
  | italic
  | oblique
deriving DecidableEq, Repr

/-- `FromValue for FontStyle` (text.rs:75). -/
def parseFontStyle : String → Option FontStyle
  | "normal" => some .normal
  | "italic" => some .italic
  | "oblique" => some .oblique
  | _ => none

inductive FontStretch where
  | normal
  | condensed
  | ultraCondensed
  | extraCondensed
  | semiCondensed
  | semiExpanded
  | expanded
  | extraExpanded
  | ultraExpanded
deriving DecidableEq, Repr

/-- The token `match` inside `conv_font_stretch` (text.rs:413-423):
note that an unknown token maps to `FontStretch::Normal`. -/
def stretchFromStr : String → FontStretch
  | "narrower" => .condensed
  | "condensed" => .condensed
  | "ultra-condensed" => .ultraCondensed
  | "extra-condensed" => .extraCondensed
  | "semi-condensed" => .semiCondensed
  | "semi-expanded" => .semiExpanded
  | "wider" => .expanded
  | "expanded" => .expanded
  | "extra-expanded" => .extraExpanded
  | "ultra-expanded" => .ultraExpanded
  | _ => .normal

/-- `conv_font_stretch` (text.rs:411): `chain` is the node's ancestor
chain (self first) mapped to the raw `font-stretch` attribute; the
nearest ancestor carrying the attribute decides, unknown tokens give
`Normal`, and absence everywhere gives `Normal`. -/
def conv_font_stretch : List (Option String) → FontStretch
  | [] => .normal
  | none :: rest => conv_font_stretch rest
  | some v :: _ => stretchFromStr v

/-! ## `convert_baseline_shift` (text.rs:691-729) -/

inductive BaselineShift where
  | baseline
  | subscript
  | superscript
  | number (n : Int)
deriving DecidableEq, Repr

/-- The raw `baseline-shift` attribute of one ancestor: either it
parses as an svgtypes `Length` (whose percent/unit resolution by the
external units module is modelled by the already-resolved value), or
it is kept as a raw string. -/
inductive BaselineShiftAttr where
  | len (resolved : Int)
  | word (s : String)
deriving DecidableEq, Repr

/-- The keyword `match` of `convert_baseline_shift` (text.rs:713-717):
an unknown token pushes `Baseline`. -/
def baselineShiftWord : String → BaselineShift
  | "sub" => .subscript
  | "super" => .superscript
  | _ => .baseline

/-- `convert_baseline_shift`: `chain` is
`node.ancestors().take_while(tag != text)` (the element itself first,
up to but excluding the enclosing `<text>`), each entry the raw
`baseline-shift` attribute.  An all-`Baseline` stack is cleared. -/
def convert_baseline_shift (chain : List (Option BaselineShiftAttr)) :
    List BaselineShift :=
  let shift := chain.foldl (fun acc a =>
    match a with
    | none => acc
    | some (.len v) => acc ++ [BaselineShift.number v]
    | some (.word s) => acc ++ [baselineShiftWord s]) []
  if shift.all (fun b => b = BaselineShift.baseline) then [] else shift

/-! ## Input normalizer (lib.rs:115-224) -/

/-- `usvg_parser::Error` (lib.rs:50); the `roxmltree` diagnostic payload
of `ParsingFailed` is abstracted away. -/
inductive Error where
  | UnrecognizedEncoding
  | MalformedGZip
  | ElementsLimitReached
  | InvalidSize
  | ParsingFailed
deriving DecidableEq, Repr

/-- Is `b` a UTF-8 continuation byte (`0x80..=0xBF`)? -/
def isCont (b : Nat) : Bool := 0x80 ≤ b && b ≤ 0xBF

/-- Decode a single UTF-8 sequence at the head of the buffer (strict
RFC 3629): the code point and the remaining bytes, or `none` on any
malformed head. -/
def utf8DecodeOne : List Nat → Option (Nat × List Nat)
  | [] => none
  | b :: rest =>
    if b ≤ 0x7F then some (b, rest)
    else if 0xC2 ≤ b && b ≤ 0xDF then
      match rest with
      | b1 :: rest2 =>
        if isCont b1 then some ((b - 0xC0) * 64 + (b1 - 0x80), rest2)
        else none
      | [] => none
    else if 0xE0 ≤ b && b ≤ 0xEF then
      match rest with
      | b1 :: b2 :: rest3 =>
        let okB1 : Bool :=
          if b = 0xE0 then 0xA0 ≤ b1 && b1 ≤ 0xBF
          else if b = 0xED then 0x80 ≤ b1 && b1 ≤ 0x9F
          else isCont b1
        if okB1 && isCont b2 then
          some ((b - 0xE0) * 4096 + (b1 - 0x80) * 64 + (b2 - 0x80), rest3)
        else none
      | _ => none
    else if 0xF0 ≤ b && b ≤ 0xF4 then
      match rest with
      | b1 :: b2 :: b3 :: rest4 =>
        let okB1 : Bool :=
          if b = 0xF0 then 0x90 ≤ b1 && b1 ≤ 0xBF
          else if b = 0xF4 then 0x80 ≤ b1 && b1 ≤ 0x8F
          else isCont b1
        if okB1 && isCont b2 && isCont b3 then
          some ((b - 0xF0) * 262144 + (b1 - 0x80) * 4096 +
            (b2 - 0x80) * 64 + (b3 - 0x80), rest4)
        else none
      | _ => none
    else none

/-- The driver loop of the UTF-8 decoder.  The fuel argument is
instantiated with the buffer length; since every decoded sequence
consumes at least one byte, the fuel never runs out before the
buffer does. -/
def utf8DecodeAux : Nat → List Nat → Option (List Nat)
  | _, [] => some []
  | 0, _ :: _ => none
  | fuel + 1, b :: rest =>
    match utf8DecodeOne (b :: rest) with
    | none => none
    | some (c, rest2) => (utf8DecodeAux fuel rest2).map (c :: ·)

/-- `std::str::from_utf8` modelled concretely: strict RFC 3629 UTF-8
validation/decoding of a byte list into code points. -/
def utf8Decode (l : List Nat) : Option (List Nat) :=
  utf8DecodeAux l.length l

/-- The collaborators of `from_data` that live outside the provided
sources: the gzip decoder (`flate2`), `std`'s UTF-16 validation
(`String::from_utf16` on already-paired `u16` values) and the
downstream `Tree::from_str` pipeline (XML parsing and conversion). -/
structure NormalizerOps (T : Type) where
  gunzip : List Nat → Option (List Nat)
  fromUtf16 : List Nat → Option (List Nat)
  fromStr : List Nat → Except Error T

/-- `u16::from_le_bytes([a, b])`. -/
def u16le (a b : Nat) : Nat := a + 256 * b

/-- `u16::from_be_bytes([a, b])`. -/
def u16be (a b : Nat) : Nat := 256 * a + b

/-- `bytes.chunks_exact(2).map(to_u16)`: consume the bytes in exact
pairs, silently dropping a trailing odd byte. -/
def chunksExact2 (to16 : Nat → Nat → Nat) : List Nat → List Nat
  | a :: b :: rest => to16 a b :: chunksExact2 to16 rest
  | _ => []

/-- `without_bom` (lib.rs:145). -/
def withoutBom {T : Type} (ops : NormalizerOps T) (to16 : Nat → Nat → Nat)
    (bytes : List Nat) : Option (List Nat) :=
  ops.fromUtf16 (chunksExact2 to16 bytes)

/-- `with_bom` (lib.rs:152): a buffer that is exactly the 2-byte BOM
decodes to the empty string; otherwise decode the bytes after the BOM. -/
def withBom {T : Type} (ops : NormalizerOps T) (to16 : Nat → Nat → Nat)
    (bytes : List Nat) : Option (List Nat) :=
  if bytes.length = 2 then some []
  else withoutBom ops to16 (bytes.drop 2)

/-- `string_from_utf16_bytes` (lib.rs:144-168). -/
def string_from_utf16_bytes {T : Type} (ops : NormalizerOps T)
    (bytes : List Nat) : Option (List Nat) :=
  if bytes.take 2 = [0xFF, 0xFE] then withBom ops u16le bytes
  else if bytes.take 2 = [0xFE, 0xFF] then withBom ops u16be bytes
  else
    -- Try both
    match withoutBom ops u16le bytes with
    | some s => some s
    | none => withoutBom ops u16be bytes

/-- `to_text` inside `from_data` (lib.rs:175-180): UTF-8 first, then
UTF-16, else `UnrecognizedEncoding`. -/
def toText {T : Type} (ops : NormalizerOps T) (data : List Nat) :
    Except Error (List Nat) :=
  match utf8Decode data with
  | some s => .ok s
  | none =>
    match string_from_utf16_bytes ops data with
    | some s => .ok s
    | none => .error .UnrecognizedEncoding

/-- `decompress_svgz` (lib.rs:215): any decoder failure becomes
`MalformedGZip`. -/
def decompress_svgz {T : Type} (ops : NormalizerOps T) (data : List Nat) :
    Except Error (List Nat) :=
  match ops.gunzip data with
  | none => .error .MalformedGZip
  | some d => .ok d

/-- `Tree::from_data` (lib.rs:174-189). -/
def from_data {T : Type} (ops : NormalizerOps T) (data : List Nat) :
    Except Error T :=
  if data.take 2 = [0x1F, 0x8B] then
    match decompress_svgz ops data with
    | .error e => .error e
    | .ok d =>
      match toText ops d with
      | .error e => .error e
      | .ok s => ops.fromStr s
  else
    match toText ops data with
    | .error e => .error e
    | .ok s => ops.fromStr s

/-! ## Helper lemmas about the in-place update primitives -/

theorem modifyAt_getD_of_ne (f : α → α) (l : List α) (i j : Nat) (d : α)
    (h : i ≠ j) : (modifyAt f l i).getD j d = l.getD j d := by
  induction l generalizing i j with
  | nil => rfl
  | cons a as_ ih =>
    cases i with
    | zero =>
      cases j with
      | zero => exact absurd rfl h
      | succ m => simp [modifyAt]
    | succ n =>
      cases j with
      | zero => simp [modifyAt]
      | succ m =>
        simp only [modifyAt, List.getD_cons_succ]
        exact ih n m (fun hnm => h (by omega))

theorem modifyAt_getD_of_eq (f : α → α) (l : List α) (i : Nat) (d : α)
    (h : i < l.length) : (modifyAt f l i).getD i d = f (l.getD i d) := by
  induction l generalizing i with
  | nil => simp at h
  | cons a as_ ih =>
    cases i with
    | zero => simp [modifyAt]
    | succ n =>
      simp only [modifyAt, List.getD_cons_succ]
      exact ih n (by simpa using h)

theorem writeField_length (upd : Int → CharacterPosition → CharacterPosition)
    (vs : List Int) (cnt off : Nat) (l : List CharacterPosition) :
    (writeField upd vs cnt off l).length = l.length := by
  induction vs generalizing cnt off l with
  | nil => simp [writeField]
  | cons v vs ih =>
    cases cnt with
    | zero => simp [writeField]
    | succ n => simp [writeField, ih, modifyAt_length]

/-- Characters outside `[off, off + min(len(values), cnt))` are not
touched by `push_list!`. -/
theorem writeField_getD_outside (upd : Int → CharacterPosition → CharacterPosition)
    (vs : List Int) (cnt off j : Nat) (l : List CharacterPosition)
    (d : CharacterPosition) (h : j < off ∨ off + min vs.length cnt ≤ j) :
    (writeField upd vs cnt off l).getD j d = l.getD j d := by
  induction vs generalizing cnt off l with
  | nil => simp [writeField]
  | cons v vs ih =>
    cases cnt with
    | zero => simp [writeField]
    | succ n =>
      simp only [List.length_cons] at h
      simp only [writeField]
      rw [ih n (off + 1) _ (by omega)]
      exact modifyAt_getD_of_ne _ _ _ _ _ (by omega)

/-- Characters inside `[off, off + min(len(values), cnt))` receive
exactly the corresponding value. -/
theorem writeField_getD_inside (upd : Int → CharacterPosition → CharacterPosition)
    (vs : List Int) (cnt off j : Nat) (l : List CharacterPosition)
    (d : CharacterPosition) (hj : j < min vs.length cnt)
    (hl : off + j < l.length) :
    (writeField upd vs cnt off l).getD (off + j) d =
      upd (vs.getD j 0) (l.getD (off + j) d) := by
  induction vs generalizing cnt off l j with
  | nil => simp at hj
  | cons v vs ih =>
    cases cnt with
    | zero => simp at hj
    | succ n =>
      simp only [List.length_cons] at hj
      simp only [writeField]
      cases j with
      | zero =>
        rw [writeField_getD_outside _ _ _ _ _ _ _ (Or.inl (by omega))]
        simpa using modifyAt_getD_of_eq (upd v) l off d (by omega)
      | succ k =>
        have := ih n (off + 1) k (modifyAt (upd v) l off)
          (by omega)
          (by rw [modifyAt_length]; omega)
        rw [show off + (k + 1) = off + 1 + k by omega]
        rw [this, modifyAt_getD_of_ne _ _ _ _ _ (by omega)]
        simp

/-- The projection `g` of positions is untouched by a `writeField`
whose update function preserves `g`. -/
theorem writeField_getD_keeps {β : Type} (g : CharacterPosition → β)
    (upd : Int → CharacterPosition → CharacterPosition)
    (hg : ∀ v p, g (upd v p) = g p) (vs : List Int) (cnt off j : Nat)
    (l : List CharacterPosition) (d : CharacterPosition) :
    g ((writeField upd vs cnt off l).getD j d) = g (l.getD j d) := by
  induction vs generalizing cnt off l with
  | nil => simp [writeField]
  | cons v vs ih =>
    cases cnt with
    | zero => simp [writeField]
    | succ n =>
      simp only [writeField]
      rw [ih n (off + 1) (modifyAt (upd v) l off)]
      rcases eq_or_ne off j with h | h
      · subst h
        rcases Nat.lt_or_ge off l.length with hlt | hge
        · rw [modifyAt_getD_of_eq _ _ _ _ hlt, hg]
        · have h1 : (modifyAt (upd v) l off).getD off d = d := by
            apply List.getD_eq_default
            rw [modifyAt_length]; omega
          have h2 : l.getD off d = d := List.getD_eq_default _ _ (by omega)
          rw [h1, h2]
      · rw [modifyAt_getD_of_ne _ _ _ _ _ h]

/-- What one character's single field looks like after one
`push_list!` invocation: inside `[off, off + min(len(values), cnt))`
the corresponding value, outside the old value. -/
def fieldWrite (vals : Option (List Int)) (cnt off i : Nat)
    (old : Option Int) : Option Int :=
  match vals with
  | none => old
  | some vs =>
    if off ≤ i ∧ i - off < min vs.length cnt then some (vs.getD (i - off) 0)
    else old

theorem pushList_length (vals : Option (List Int))
    (upd : Int → CharacterPosition → CharacterPosition) (cnt off : Nat)
    (l : List CharacterPosition) :
    (pushList vals upd cnt off l).length = l.length := by
  cases vals with
  | none => rfl
  | some vs => exact writeField_length _ _ _ _ _

theorem pushList_getD_x (vals : Option (List Int)) (cnt off i : Nat)
    (l : List CharacterPosition) (hi : i < l.length) :
    (pushList vals (fun v p => { p with x := some v }) cnt off l).getD i default =
      { l.getD i default with x := fieldWrite vals cnt off i ((l.getD i default).x) } := by
  cases vals with
  | none => simp [pushList, fieldWrite]
  | some vs =>
    simp only [pushList, fieldWrite]
    split
    · next h =>
      obtain ⟨h1, h2⟩ := h
      have := writeField_getD_inside (fun v p => { p with x := some v })
        vs cnt off (i - off) l default h2 (by omega)
      rw [show off + (i - off) = i by omega] at this
      rw [this]
    · next h =>
      rw [writeField_getD_outside _ _ _ _ _ _ _ (by omega)]

theorem pushList_getD_y (vals : Option (List Int)) (cnt off i : Nat)
    (l : List CharacterPosition) (hi : i < l.length) :
    (pushList vals (fun v p => { p with y := some v }) cnt off l).getD i default =
      { l.getD i default with y := fieldWrite vals cnt off i ((l.getD i default).y) } := by
  cases vals with
  | none => simp [pushList, fieldWrite]
  | some vs =>
    simp only [pushList, fieldWrite]
    split
    · next h =>
      obtain ⟨h1, h2⟩ := h
      have := writeField_getD_inside (fun v p => { p with y := some v })
        vs cnt off (i - off) l default h2 (by omega)
      rw [show off + (i - off) = i by omega] at this
      rw [this]
    · next h =>
      rw [writeField_getD_outside _ _ _ _ _ _ _ (by omega)]

theorem pushList_getD_dx (vals : Option (List Int)) (cnt off i : Nat)
    (l : List CharacterPosition) (hi : i < l.length) :
    (pushList vals (fun v p => { p with dx := some v }) cnt off l).getD i default =
      { l.getD i default with dx := fieldWrite vals cnt off i ((l.getD i default).dx) } := by
  cases vals with
  | none => simp [pushList, fieldWrite]
  | some vs =>
    simp only [pushList, fieldWrite]
    split
    · next h =>
      obtain ⟨h1, h2⟩ := h
      have := writeField_getD_inside (fun v p => { p with dx := some v })
        vs cnt off (i - off) l default h2 (by omega)
      rw [show off + (i - off) = i by omega] at this
      rw [this]
    · next h =>
      rw [writeField_getD_outside _ _ _ _ _ _ _ (by omega)]

theorem pushList_getD_dy (vals : Option (List Int)) (cnt off i : Nat)
    (l : List CharacterPosition) (hi : i < l.length) :
    (pushList vals (fun v p => { p with dy := some v }) cnt off l).getD i default =
      { l.getD i default with dy := fieldWrite vals cnt off i ((l.getD i default).dy) } := by
  cases vals with
  | none => simp [pushList, fieldWrite]
  | some vs =>
    simp only [pushList, fieldWrite]
    split
    · next h =>
      obtain ⟨h1, h2⟩ := h
      have := writeField_getD_inside (fun v p => { p with dy := some v })
        vs cnt off (i - off) l default h2 (by omega)
      rw [show off + (i - off) = i by omega] at this
      rw [this]
    · next h =>
      rw [writeField_getD_outside _ _ _ _ _ _ _ (by omega)]

/-- Complete characterization of one element's attribute application:
every field of every character is the `fieldWrite` of its old value. -/
theorem applyPosAttrs_getD (d : ElemData) (cnt off i : Nat)
    (l : List CharacterPosition) (hi : i < l.length) :
    (applyPosAttrs d cnt off l).getD i default =
      { x := fieldWrite d.x cnt off i ((l.getD i default).x)
        y := fieldWrite d.y cnt off i ((l.getD i default).y)
        dx := fieldWrite d.dx cnt off i ((l.getD i default).dx)
        dy := fieldWrite d.dy cnt off i ((l.getD i default).dy) } := by
  unfold applyPosAttrs
  rw [pushList_getD_dy _ _ _ _ _ (by
    simp only [pushList_length]; exact hi)]
  rw [pushList_getD_dx _ _ _ _ _ (by
    simp only [pushList_length]; exact hi)]
  rw [pushList_getD_y _ _ _ _ _ (by
    simp only [pushList_length]; exact hi)]
  rw [pushList_getD_x _ _ _ _ _ hi]

/-! ## Claim C2 — position resolution -/

/-- Scenario S1:
`<text><tspan x="100 110 120 130">a<tspan x="50">bc</tspan></tspan>d</text>`. -/
def exS1 : XNode :=
  .elem { tag := Tag.text }
    [.elem { tag := Tag.tspan, x := some [100, 110, 120, 130] }
      [.text ['a'],
       .elem { tag := Tag.tspan, x := some [50] } [.text ['b', 'c']]],
     .text ['d']]

/-- C2: position resolution walks descendants in document order,
advancing the offset by code-point count at text nodes; every `text` or
`tspan` element writes each of x, y, dx, dy into
`list[offset .. offset + min(len(values), count_chars(element)))`
(characterized completely by `fieldWrite`); elements of any other tag
(in particular `textPath`) contribute no positions; nested `tspan`
writes overwrite outer writes, so S1 yields x positions
`[Some(100), Some(50), Some(120), None]`. -/
theorem claim_C2_positions :
    ((resolve_positions_list exS1).map (fun p => p.x) =
      [some 100, some 50, some 120, none])
    ∧ (∀ (d : ElemData) (cs : List XNode) (off : Nat)
        (l : List CharacterPosition),
        d.tag ≠ Tag.text → d.tag ≠ Tag.tspan →
        posWalkNode (.elem d cs) off l = posWalkList cs off l)
    ∧ (∀ (s : List Char) (off : Nat) (l : List CharacterPosition),
        posWalkNode (.text s) off l = (off + s.length, l))
    ∧ (∀ (d : ElemData) (cs : List XNode) (off : Nat)
        (l : List CharacterPosition),
        d.tag = Tag.text ∨ d.tag = Tag.tspan →
        posWalkNode (.elem d cs) off l =
          posWalkList cs off (applyPosAttrs d (countCharsList cs) off l))
    ∧ (∀ (d : ElemData) (cnt off i : Nat) (l : List CharacterPosition),
        i < l.length →
        (applyPosAttrs d cnt off l).getD i default =
          { x := fieldWrite d.x cnt off i ((l.getD i default).x)
            y := fieldWrite d.y cnt off i ((l.getD i default).y)
            dx := fieldWrite d.dx cnt off i ((l.getD i default).dx)
            dy := fieldWrite d.dy cnt off i ((l.getD i default).dy) }) := by
  refine ⟨by decide, ?_, ?_, ?_, applyPosAttrs_getD⟩
  · intro d cs off l h1 h2
    simp [posWalkNode, h1, h2]
  · intro s off l
    simp [posWalkNode]
  · intro d cs off l h
    simp [posWalkNode, h]

/-- Witness for `claim_C2_positions`: its hypothesized conjuncts applied
at concrete inputs. -/
theorem claim_C2_positions_witness :
    (posWalkNode (.elem { tag := Tag.textPath } [.text ['z']]) 0 [{}] =
      posWalkList [.text ['z']] 0 [{}])
    ∧ (posWalkNode (.elem { tag := Tag.tspan, x := some [7] } [.text ['z']]) 0 [{}] =
        posWalkList [.text ['z']] 0
          (applyPosAttrs { tag := Tag.tspan, x := some [7] } 1 0 [{}]))
    ∧ ((applyPosAttrs { tag := Tag.tspan, x := some [7] } 1 0 [{}]).getD 0 default =
        { x := some 7, y := none, dx := none, dy := none }) := by
  refine ⟨?_, ?_, ?_⟩
  · exact claim_C2_positions.2.1 _ _ 0 [{}] (by decide) (by decide)
  · have := claim_C2_positions.2.2.2.1 { tag := Tag.tspan, x := some [7] }
      [.text ['z']] 0 [{}] (Or.inr rfl)
    simpa [countCharsList, countCharsNode] using this
  · rw [claim_C2_positions.2.2.2.2 { tag := Tag.tspan, x := some [7] }
      1 0 0 [{}] (by decide)]
    decide

/-! ## Claim C4 — font-weight cascade -/

/-- C4: font weight is resolved walking ancestors from the root toward
the element (root skipped) with running weight starting at 400:
`normal`→400, `bold`→700, numeric strings to their value, `bolder` and
`lighter` with the (300, 200) step at 400 clamped to `[100, 900]`, any
other or absent value leaves the weight unchanged; in particular
`<text font-weight="bold"><tspan font-weight="lighter">X</tspan></text>`
resolves to 600. -/
theorem claim_C4_font_weight :
    (resolve_font_weight [] = 400)
    ∧ (∀ (chain : List (Option String)) (a : Option String),
        resolve_font_weight (chain ++ [a]) =
          fontWeightStep (resolve_font_weight chain) (a.getD ""))
    ∧ (∀ w, fontWeightStep w "normal" = 400)
    ∧ (∀ w, fontWeightStep w "bold" = 700)
    ∧ (∀ w, [fontWeightStep w "100", fontWeightStep w "200",
        fontWeightStep w "300", fontWeightStep w "400", fontWeightStep w "500",
        fontWeightStep w "600", fontWeightStep w "700", fontWeightStep w "800",
        fontWeightStep w "900"] = [100, 200, 300, 400, 500, 600, 700, 800, 900])
    ∧ (∀ w, fontWeightStep w "bolder" =
        bound 100 (w + (if w = 400 then 300 else 100)) 900)
    ∧ (∀ w, fontWeightStep w "lighter" =
        bound 100 (w - (if w = 400 then 200 else 100)) 900)
    ∧ (∀ w (s : String), s ∉ (["normal", "bold", "100", "200", "300", "400",
        "500", "600", "700", "800", "900", "bolder", "lighter"] : List String) →
        fontWeightStep w s = w)
    ∧ (resolve_font_weight [none, some "bold", some "lighter"] = 600) := by
  refine ⟨rfl, ?_, fun w => rfl, fun w => rfl, fun w => rfl,
    fun w => rfl, fun w => rfl, ?_, by decide⟩
  · intro chain a
    simp [resolve_font_weight, List.foldl_append]
  · intro w s hs
    rw [fontWeightStep.eq_def]
    split <;> simp_all

/-- Witness for `claim_C4_font_weight`: an unknown token at a concrete
weight leaves the weight unchanged. -/
theorem claim_C4_font_weight_witness : fontWeightStep 700 "bogus" = 700 :=
  claim_C4_font_weight.2.2.2.2.2.2.2.1 700 "bogus" (by decide)

/-! ## Claim C6 — rotation resolution -/

theorem rotateApply_length (rot : List Int) (cnt off : Nat) (last : Int)
    (l : List Int) : (rotateApply rot cnt off last l).2.length = l.length := by
  induction cnt generalizing rot off last l with
  | zero => simp [rotateApply]
  | succ n ih =>
    cases rot with
    | nil => rw [rotateApply]; rw [ih]; simp [modifyAt_length]
    | cons a rest => rw [rotateApply]; rw [ih]; simp [modifyAt_length]

/-- The per-element rotation loop never touches indices below `off`. -/
theorem rotateApply_getD_lt (rot : List Int) (cnt off : Nat) (last : Int)
    (l : List Int) (j : Nat) (hj : j < off) :
    (rotateApply rot cnt off last l).2.getD j 0 = l.getD j 0 := by
  induction cnt generalizing rot off last l with
  | zero => simp [rotateApply]
  | succ n ih =>
    cases rot with
    | nil =>
      rw [rotateApply, ih _ _ _ _ (by omega),
        modifyAt_getD_of_ne _ _ _ _ _ (by omega)]
    | cons a rest =>
      rw [rotateApply, ih _ _ _ _ (by omega),
        modifyAt_getD_of_ne _ _ _ _ _ (by omega)]

/-- With an exhausted rotate list, every index of the loop receives the
`last` seen value and `last` is left unchanged. -/
theorem rotateApply_nil (cnt off : Nat) (last : Int) (l : List Int) :
    (rotateApply [] cnt off last l).1 = last
    ∧ ∀ j, j < cnt → off + j < l.length →
      (rotateApply [] cnt off last l).2.getD (off + j) 0 = last := by
  induction cnt generalizing off l with
  | zero => exact ⟨rfl, by omega⟩
  | succ n ih =>
    rw [rotateApply]
    refine ⟨(ih (off + 1) _).1, ?_⟩
    intro j hj hl
    cases j with
    | zero =>
      rw [rotateApply_getD_lt _ _ _ _ _ _ (by omega)]
      simpa using modifyAt_getD_of_eq (fun _ => last) l off 0 (by omega)
    | succ k =>
      have := (ih (off + 1) (modifyAt (fun _ => last) l off)).2 k (by omega)
        (by rw [modifyAt_length]; omega)
      rw [show off + (k + 1) = off + 1 + k by omega]
      exact this

/-- When an element's rotate list of length `L ≥ 1` is shorter than its
character count `cnt`, the characters `L ≤ j < cnt` all take
`rotate[L-1]`, and that value is carried out as the new `last`. -/
theorem rotateApply_spec (rotate : List Int) (cnt off : Nat) (last : Int)
    (l : List Int) (hne : rotate ≠ []) (hlen : rotate.length ≤ cnt)
    (hl : off + cnt ≤ l.length) :
    (rotateApply rotate cnt off last l).1 =
      rotate.getD (rotate.length - 1) 0
    ∧ ∀ j, rotate.length ≤ j → j < cnt →
      (rotateApply rotate cnt off last l).2.getD (off + j) 0 =
        rotate.getD (rotate.length - 1) 0 := by
  induction rotate generalizing cnt off last l with
  | nil => exact absurd rfl hne
  | cons a rest ih =>
    cases cnt with
    | zero => simp at hlen
    | succ n =>
      rw [rotateApply]
      cases hr : rest with
      | nil =>
        subst hr
        refine ⟨by simpa using (rotateApply_nil n (off + 1) a _).1, ?_⟩
        intro j h1 h2
        simp only [List.length_cons, List.length_nil] at h1 ⊢
        cases j with
        | zero => omega
        | succ k =>
          have := (rotateApply_nil n (off + 1) a
            (modifyAt (fun _ => a) l off)).2 k (by omega)
            (by rw [modifyAt_length]; omega)
          rw [show off + (k + 1) = off + 1 + k by omega]
          simpa using this
      | cons b rest2 =>
        have hne2 : rest ≠ [] := by rw [hr]; simp
        rw [← hr]
        have hlen2 : rest.length ≤ n := by
          simp only [List.length_cons] at hlen; omega
        have hl2 : off + 1 + n ≤ (modifyAt (fun _ => a) l off).length := by
          rw [modifyAt_length]; omega
        obtain ⟨ha, hb⟩ := ih n (off + 1) a (modifyAt (fun _ => a) l off)
          hne2 hlen2 hl2
        have hgd : (a :: rest).getD ((a :: rest).length - 1) 0 =
            rest.getD (rest.length - 1) 0 := by
          have hpos : 0 < rest.length := by rw [hr]; simp
          have : rest.length - 1 + 1 = rest.length := by omega
          simp only [List.length_cons]
          rw [show rest.length + 1 - 1 = (rest.length - 1) + 1 by omega]
          simp
        refine ⟨by rw [ha, hgd], ?_⟩
        intro j h1 h2
        simp only [List.length_cons] at h1
        cases j with
        | zero => omega
        | succ k =>
          have := hb k (by omega) (by omega)
          rw [show off + (k + 1) = off + 1 + k by omega, this, hgd]

mutual

theorem rotWalkNode_length (n : XNode) (off : Nat) (last : Int)
    (l : List Int) : (rotWalkNode n off last l).2.2.length = l.length := by
  match n with
  | .text s => simp [rotWalkNode]
  | .elem d cs =>
    rw [rotWalkNode]
    cases hr : d.rotate with
    | none => exact rotWalkList_length cs off last l
    | some rotate =>
      rw [rotWalkList_length cs]
      exact rotateApply_length rotate (countCharsList cs) off last l

theorem rotWalkList_length (ns : List XNode) (off : Nat) (last : Int)
    (l : List Int) : (rotWalkList ns off last l).2.2.length = l.length := by
  match ns with
  | [] => simp [rotWalkList]
  | n :: rest =>
    rw [rotWalkList]
    rw [rotWalkList_length rest, rotWalkNode_length n]

end

/-- Cross-element persistence example:
`<text><tspan rotate="10 20">a</tspan><tspan rotate="">b</tspan></text>`
where the second element carries a rotate attribute with no usable
entry, so its character repeats the `last` value set by the first. -/
def exRotate : XNode :=
  .elem { tag := Tag.text }
    [.elem { tag := Tag.tspan, rotate := some [10, 20] } [.text ['a']],
     .elem { tag := Tag.tspan, rotate := some [] } [.text ['b']]]

/-- C6: rotation resolution allocates a zero list of length
`total_chars`; for an element carrying a rotate list, indices
`0 .. count_chars(element)` take the listed value when present and
otherwise the last seen value (so with `L ≥ 1` values and `N ≥ L`
characters, characters `L..N` take `rotate[L-1]`, which also becomes
the propagated `last`); elements without a rotate list change nothing;
the last-seen value persists across elements. -/
theorem claim_C6_rotate :
    (∀ root : XNode, (resolve_rotate_list root).length = countCharsNode root)
    ∧ (∀ (rotate : List Int) (cnt off : Nat) (last : Int) (l : List Int),
        rotate ≠ [] → rotate.length ≤ cnt → off + cnt ≤ l.length →
        (rotateApply rotate cnt off last l).1 =
          rotate.getD (rotate.length - 1) 0
        ∧ ∀ j, rotate.length ≤ j → j < cnt →
          (rotateApply rotate cnt off last l).2.getD (off + j) 0 =
            rotate.getD (rotate.length - 1) 0)
    ∧ (∀ (d : ElemData) (cs : List XNode) (off : Nat) (last : Int)
        (l : List Int), d.rotate = none →
        rotWalkNode (.elem d cs) off last l = rotWalkList cs off last l)
    ∧ (∀ (s : List Char) (off : Nat) (last : Int) (l : List Int),
        rotWalkNode (.text s) off last l = (off + s.length, last, l))
    ∧ (resolve_rotate_list exRotate = [10, 10]) := by
  refine ⟨?_, rotateApply_spec, ?_, fun s off last l => rfl, by decide⟩
  · intro root
    unfold resolve_rotate_list
    rw [rotWalkNode_length]
    simp
  · intro d cs off last l h
    rw [rotWalkNode, h]

/-- Witness for `claim_C6_rotate`: the `L..N` propagation at a concrete
input — rotate list `[10, 20]` over four characters gives the tail
characters the value 20. -/
theorem claim_C6_rotate_witness :
    (rotateApply [10, 20] 4 0 0 [0, 0, 0, 0]).2.getD 2 0 = 20
    ∧ (rotateApply [10, 20] 4 0 0 [0, 0, 0, 0]).2.getD 3 0 = 20
    ∧ (rotateApply [10, 20] 4 0 0 [0, 0, 0, 0]).1 = 20
    ∧ rotWalkNode (.elem { tag := Tag.other } [.text ['q']]) 0 0 [0] =
        rotWalkList [.text ['q']] 0 0 [0] := by
  have h := claim_C6_rotate.2.1 [10, 20] 4 0 0 [0, 0, 0, 0]
    (by decide) (by decide) (by decide)
  have h2 := h.2 2 (by decide) (by decide)
  have h3 := h.2 3 (by decide) (by decide)
  have h4 := claim_C6_rotate.2.2.1 { tag := Tag.other } [.text ['q']] 0 0 [0] rfl
  exact ⟨by simpa using h2, by simpa using h3, by simpa using h.1, h4⟩

/-! ## Claim C7 — silent local failures in chunk collection -/

/-- C7: an out-of-place `textPath`, an unresolvable `textPath`, a text
node under a non-visible element, and a non-positive resolved font size
each advance `chars_count` by the subtree's code-point count (keeping
the position list aligned) while leaving the chunk accumulator and the
rest of the iteration state untouched; lowering itself never fails. -/
theorem claim_C7_silent_failures :
    (∀ (posList : List CharacterPosition) (parent d : ElemData)
        (cs : List XNode) (st : IterState),
        d.tag = Tag.textPath → parent.tag ≠ Tag.text →
        collectNode posList parent (.elem d cs) st =
          { st with charsCount := st.charsCount + countCharsList cs })
    ∧ (∀ (posList : List CharacterPosition) (parent d : ElemData)
        (cs : List XNode) (st : IterState),
        d.tag = Tag.textPath → parent.tag = Tag.text → d.flow = none →
        collectNode posList parent (.elem d cs) st =
          { st with charsCount := st.charsCount + countCharsList cs })
    ∧ (∀ (posList : List CharacterPosition) (parent : ElemData)
        (s : List Char) (st : IterState),
        parent.visible = false →
        collectNode posList parent (.text s) st =
          { st with charsCount := st.charsCount + s.length })
    ∧ (∀ (posList : List CharacterPosition) (parent : ElemData)
        (s : List Char) (st : IterState),
        parent.visible = true → parent.fontSize ≤ 0 →
        collectNode posList parent (.text s) st =
          { st with charsCount := st.charsCount + s.length }) := by
  refine ⟨?_, ?_, ?_, ?_⟩
  · intro posList parent d cs st h1 h2
    rw [collectNode]
    simp [h1, h2]
  · intro posList parent d cs st h1 h2 h3
    rw [collectNode]
    simp [h1, h2, h3]
  · intro posList parent s st h
    rw [collectNode]
    simp [processText, h]
  · intro posList parent s st h1 h2
    rw [collectNode]
    simp [processText, h1, h2]

/-- Witness for `claim_C7_silent_failures`: all four failure shapes at
concrete inputs. -/
theorem claim_C7_silent_failures_witness :
    (collectNode [] { tag := Tag.tspan }
      (.elem { tag := Tag.textPath } [.text ['a']])
      { charsCount := 0, chunkBytesCount := 0, splitChunk := false
        textFlow := TextFlow.linear, chunks := [] } =
      { charsCount := 1, chunkBytesCount := 0, splitChunk := false
        textFlow := TextFlow.linear, chunks := [] })
    ∧ (collectNode [] { tag := Tag.text }
      (.elem { tag := Tag.textPath, flow := none } [.text ['a']])
      { charsCount := 0, chunkBytesCount := 0, splitChunk := false
        textFlow := TextFlow.linear, chunks := [] } =
      { charsCount := 1, chunkBytesCount := 0, splitChunk := false
        textFlow := TextFlow.linear, chunks := [] })
    ∧ (collectNode [] { tag := Tag.tspan, visible := false } (.text ['a'])
      { charsCount := 0, chunkBytesCount := 0, splitChunk := false
        textFlow := TextFlow.linear, chunks := [] } =
      { charsCount := 1, chunkBytesCount := 0, splitChunk := false
        textFlow := TextFlow.linear, chunks := [] })
    ∧ (collectNode [] { tag := Tag.tspan, fontSize := 0 } (.text ['a'])
      { charsCount := 0, chunkBytesCount := 0, splitChunk := false
        textFlow := TextFlow.linear, chunks := [] } =
      { charsCount := 1, chunkBytesCount := 0, splitChunk := false
        textFlow := TextFlow.linear, chunks := [] }) := by
  refine ⟨?_, ?_, ?_, ?_⟩
  · exact (claim_C7_silent_failures.1 [] _ _ _ _ rfl (by decide)).trans
      (by decide)
  · exact (claim_C7_silent_failures.2.1 [] _ _ _ _ rfl rfl rfl).trans
      (by decide)
  · exact (claim_C7_silent_failures.2.2.1 [] _ _ _ rfl).trans (by decide)
  · exact (claim_C7_silent_failures.2.2.2 [] _ _ _ rfl (by decide)).trans
      (by decide)

/-! ## Claim C5 — `from_data` decoding dispatch -/

/-- C5: `from_data` gzip-decompresses buffers starting with `1F 8B`
(any decompression error becomes `MalformedGZip`), uses other buffers
directly, decodes as UTF-8 first, falls back to UTF-16 honoring an
`FF FE`/`FE FF` byte-order mark (without a BOM little-endian is tried
before big-endian), and reports `UnrecognizedEncoding` when every
decoding fails. -/
theorem claim_C5_from_data_dispatch {T : Type} (ops : NormalizerOps T)
    (data d : List Nat) :
    (data.take 2 = [0x1F, 0x8B] → ops.gunzip data = none →
      from_data ops data = .error Error.MalformedGZip)
    ∧ (data.take 2 = [0x1F, 0x8B] → ops.gunzip data = some d →
        ∀ s, utf8Decode d = some s → from_data ops data = ops.fromStr s)
    ∧ (data.take 2 = [0x1F, 0x8B] → ops.gunzip data = some d →
        utf8Decode d = none → ∀ s, string_from_utf16_bytes ops d = some s →
        from_data ops data = ops.fromStr s)
    ∧ (data.take 2 = [0x1F, 0x8B] → ops.gunzip data = some d →
        utf8Decode d = none → string_from_utf16_bytes ops d = none →
        from_data ops data = .error Error.UnrecognizedEncoding)
    ∧ (data.take 2 ≠ [0x1F, 0x8B] →
        (∀ s, utf8Decode data = some s → from_data ops data = ops.fromStr s)
        ∧ (utf8Decode data = none →
            ∀ s, string_from_utf16_bytes ops data = some s →
            from_data ops data = ops.fromStr s)
        ∧ (utf8Decode data = none → string_from_utf16_bytes ops data = none →
            from_data ops data = .error Error.UnrecognizedEncoding))
    ∧ (data.take 2 = [0xFF, 0xFE] →
        string_from_utf16_bytes ops data = withBom ops u16le data)
    ∧ (data.take 2 = [0xFE, 0xFF] → data.take 2 ≠ [0xFF, 0xFE] →
        string_from_utf16_bytes ops data = withBom ops u16be data)
    ∧ (data.take 2 ≠ [0xFF, 0xFE] → data.take 2 ≠ [0xFE, 0xFF] →
        (∀ s, withoutBom ops u16le data = some s →
          string_from_utf16_bytes ops data = some s)
        ∧ (withoutBom ops u16le data = none →
          string_from_utf16_bytes ops data = withoutBom ops u16be data)) := by
  refine ⟨?_, ?_, ?_, ?_, ?_, ?_, ?_, ?_⟩
  · intro h1 h2
    simp [from_data, decompress_svgz, h1, h2]
  · intro h1 h2 s h3
    simp [from_data, decompress_svgz, toText, h1, h2, h3]
  · intro h1 h2 h3 s h4
    simp [from_data, decompress_svgz, toText, h1, h2, h3, h4]
  · intro h1 h2 h3 h4
    simp [from_data, decompress_svgz, toText, h1, h2, h3, h4]
  · intro h1
    refine ⟨?_, ?_, ?_⟩
    · intro s h2
      simp [from_data, toText, h1, h2]
    · intro h2 s h3
      simp [from_data, toText, h1, h2, h3]
    · intro h2 h3
      simp [from_data, toText, h1, h2, h3]
  · intro h1
    simp [string_from_utf16_bytes, h1]
  · intro h1 h2
    simp [string_from_utf16_bytes, h1, h2]
  · intro h1 h2
    constructor
    · intro s h3
      simp [string_from_utf16_bytes, h1, h2, h3]
    · intro h3
      simp [string_from_utf16_bytes, h1, h2, h3]

/-- A normalizer whose every collaborator fails (and, when asked to
parse, answers a fixed tree value). -/
def opsAllFail : NormalizerOps Nat :=
  { gunzip := fun _ => none
    fromUtf16 := fun _ => none
    fromStr := fun _ => .ok 5 }

/-- A normalizer whose gzip decoder always produces the byte `0x41`. -/
def opsGzipToA : NormalizerOps Nat :=
  { gunzip := fun _ => some [0x41]
    fromUtf16 := fun _ => none
    fromStr := fun _ => .ok 5 }

/-- Witness for `claim_C5_from_data_dispatch`: a failing gzip buffer, a
successfully decompressed one, and an undecodable raw buffer. -/
theorem claim_C5_from_data_dispatch_witness :
    (from_data opsAllFail [0x1F, 0x8B] = .error Error.MalformedGZip)
    ∧ (from_data opsGzipToA [0x1F, 0x8B] = .ok 5)
    ∧ (from_data opsAllFail [0xFF] = .error Error.UnrecognizedEncoding) := by
  refine ⟨?_, ?_, ?_⟩
  · exact (claim_C5_from_data_dispatch opsAllFail [0x1F, 0x8B] []).1
      (by decide) rfl
  · exact (claim_C5_from_data_dispatch opsGzipToA [0x1F, 0x8B] [0x41]).2.1
      (by decide) rfl [0x41] (by decide)
  · exact ((claim_C5_from_data_dispatch opsAllFail [0xFF] []).2.2.2.2.1
      (by decide)).2.2 (by decide) rfl

/-! ## Claim C9 — gzip ingestion round trip -/

/-- A valid UTF-8 buffer can never begin with the gzip magic `1F 8B`:
`0x8B` is a bare continuation byte. -/
theorem utf8Decode_gzip_magic (r : List Nat) :
    utf8Decode (0x1F :: 0x8B :: r) = none := by
  show utf8DecodeAux (r.length + 1 + 1) (0x1F :: 0x8B :: r) = none
  rw [utf8DecodeAux]
  norm_num [utf8DecodeOne]
  rw [utf8DecodeAux.eq_def]
  cases r <;> norm_num [utf8DecodeOne, isCont]

/-- C9: feeding a gzip compression of a valid UTF-8 SVG (a buffer
carrying the `1F 8B` magic that decompresses back to the original
bytes) produces the same result as feeding the raw bytes. -/
theorem claim_C9_gzip_roundtrip {T : Type} (ops : NormalizerOps T)
    (raw comp s : List Nat)
    (hutf8 : utf8Decode raw = some s)
    (hmagic : comp.take 2 = [0x1F, 0x8B])
    (hgz : ops.gunzip comp = some raw) :
    from_data ops comp = from_data ops raw := by
  have hraw : raw.take 2 ≠ [0x1F, 0x8B] := by
    intro hc
    have hnone : utf8Decode raw = none := by
      match raw, hc with
      | a :: b :: r, hc =>
        simp only [List.take_succ_cons, List.take_zero, List.cons.injEq,
          and_true] at hc
        obtain ⟨h1, h2⟩ := hc
        subst h1; subst h2
        exact utf8Decode_gzip_magic r
    rw [hnone] at hutf8
    exact Option.noConfusion hutf8
  have h1 : from_data ops comp = ops.fromStr s := by
    unfold from_data decompress_svgz toText
    rw [if_pos hmagic, hgz]
    simp only [hutf8]
  have h2 : from_data ops raw = ops.fromStr s := by
    unfold from_data toText
    rw [if_neg hraw]
    simp only [hutf8]
  rw [h1, h2]

/-- Witness for `claim_C9_gzip_roundtrip` at a concrete one-byte
document and a gzip stub that inverts `opsGzipToA`'s compression. -/
theorem claim_C9_gzip_roundtrip_witness :
    from_data opsGzipToA [0x1F, 0x8B, 0x00] = from_data opsGzipToA [0x41] :=
  claim_C9_gzip_roundtrip opsGzipToA [0x41] [0x1F, 0x8B, 0x00] [0x41]
    (by decide) (by decide) rfl

/-! ## Claim C10 — UTF-16 byte pairing and BOM-only buffers -/

theorem chunksExact2_append_odd (to16 : Nat → Nat → Nat) :
    ∀ (l : List Nat) (x : Nat), l.length % 2 = 0 →
      chunksExact2 to16 (l ++ [x]) = chunksExact2 to16 l
  | [], x, _ => by simp [chunksExact2]
  | [a], x, h => by simp at h
  | a :: b :: rest, x, h => by
    have ih := chunksExact2_append_odd to16 rest x (by
      simp only [List.length_cons] at h; omega)
    simp only [List.cons_append, chunksExact2]
    exact congrArg (fun t => to16 a b :: t) ih

theorem withoutBom_append_odd {T : Type} (ops : NormalizerOps T)
    (to16 : Nat → Nat → Nat) (l : List Nat) (x : Nat)
    (h : l.length % 2 = 0) :
    withoutBom ops to16 (l ++ [x]) = withoutBom ops to16 l := by
  unfold withoutBom
  rw [chunksExact2_append_odd to16 l x h]

/-- C10: `string_from_utf16_bytes` consumes the bytes in exact pairs,
so a trailing odd byte is silently dropped (appending one byte to an
even-length buffer does not change the result), and a buffer that is
exactly a 2-byte byte-order mark decodes to the empty string.  The
hypothesis `hE` records that `std`'s `String::from_utf16` accepts the
empty value list (needed when the even buffer is exactly a BOM). -/
theorem claim_C10_utf16_odd_byte {T : Type} (ops : NormalizerOps T)
    (hE : ops.fromUtf16 [] = some [])
    (bytes : List Nat) (b : Nat) (heven : bytes.length % 2 = 0) :
    string_from_utf16_bytes ops (bytes ++ [b]) =
      string_from_utf16_bytes ops bytes
    ∧ string_from_utf16_bytes ops [0xFF, 0xFE] = some []
    ∧ string_from_utf16_bytes ops [0xFE, 0xFF] = some [] := by
  refine ⟨?_, by simp [string_from_utf16_bytes, withBom],
    by simp [string_from_utf16_bytes, withBom]⟩
  match bytes, heven with
  | [], _ =>
    simp only [List.nil_append]
    simp [string_from_utf16_bytes, withoutBom, chunksExact2]
  | [a], heven => simp at heven
  | a :: c :: rest, heven =>
    have hrest : rest.length % 2 = 0 := by
      simp only [List.length_cons] at heven; omega
    have htake : (a :: c :: (rest ++ [b])).take 2 = (a :: c :: rest).take 2 := by
      simp
    simp only [List.cons_append, string_from_utf16_bytes]
    simp only [List.take_succ_cons, List.take_zero]
    by_cases h1 : [a, c] = [0xFF, 0xFE]
    · simp only [if_pos h1]
      unfold withBom
      rcases List.eq_nil_or_concat rest with hr | ⟨pre, y, hr⟩
      · subst hr
        simp [withoutBom, chunksExact2, hE]
      · have hlen : (a :: c :: (rest ++ [b])).length ≠ 2 := by simp
        have hlen2 : (a :: c :: rest).length ≠ 2 := by
          subst hr; simp
        simp only [if_neg hlen, if_neg hlen2]
        simpa using withoutBom_append_odd ops u16le rest b hrest
    · simp only [if_neg h1]
      by_cases h2 : [a, c] = [0xFE, 0xFF]
      · simp only [if_pos h2]
        unfold withBom
        rcases List.eq_nil_or_concat rest with hr | ⟨pre, y, hr⟩
        · subst hr
          simp [withoutBom, chunksExact2, hE]
        · have hlen : (a :: c :: (rest ++ [b])).length ≠ 2 := by simp
          have hlen2 : (a :: c :: rest).length ≠ 2 := by
            subst hr; simp
          simp only [if_neg hlen, if_neg hlen2]
          simpa using withoutBom_append_odd ops u16be rest b hrest
      · simp only [if_neg h2]
        have he : (a :: c :: rest).length % 2 = 0 := heven
        have hle := withoutBom_append_odd ops u16le (a :: c :: rest) b he
        have hbe := withoutBom_append_odd ops u16be (a :: c :: rest) b he
        simp only [List.cons_append] at hle hbe
        rw [hle, hbe]

/-! ## Claim C8 — closed attribute-value enumerations

The claim asserts that all the listed enumerations reject unknown
tokens, treating the attribute as absent.  That is true of the five
`FromValue` parsers, but not of `conv_font_stretch` (an unknown token
at the nearest attribute-carrying ancestor yields `Normal` and stops
the search) nor of the `baseline-shift` keyword match (an unknown
keyword pushes `Baseline` onto the stack). -/

/-- Strict font-stretch token parsing following the claim's words
("an unknown token is rejected"). -/
def parseFontStretchStrict : String → Option FontStretch
  | "narrower" => some .condensed
  | "condensed" => some .condensed
  | "ultra-condensed" => some .ultraCondensed
  | "extra-condensed" => some .extraCondensed
  | "semi-condensed" => some .semiCondensed
  | "semi-expanded" => some .semiExpanded
  | "wider" => some .expanded
  | "expanded" => some .expanded
  | "extra-expanded" => some .extraExpanded
  | "ultra-expanded" => some .ultraExpanded
  | _ => none

/-- The claim's reading of stretch resolution: an unknown token is
rejected and the attribute treated as absent, so the search continues
up the ancestor chain.  (Comparison definition written from the spec's
words, not from the source.) -/
def convFontStretchSpecReading : List (Option String) → FontStretch
  | [] => .normal
  | none :: rest => convFontStretchSpecReading rest
  | some v :: rest =>
    match parseFontStretchStrict v with
    | some f => f
    | none => convFontStretchSpecReading rest

/-- Counterexample to C8: with `font-stretch="bogus"` on the element and
`font-stretch="condensed"` on its parent, the source substitutes the
default `Normal` (the unknown token is not treated as absent, which
would give `Condensed`); and an unknown `baseline-shift` keyword below
a `sub` ancestor pushes `Baseline` onto the stack instead of being
dropped. -/
theorem claim_C8_counterexample :
    (conv_font_stretch [some "bogus", some "condensed"] = FontStretch.normal
      ∧ convFontStretchSpecReading [some "bogus", some "condensed"] =
          FontStretch.condensed
      ∧ FontStretch.normal ≠ FontStretch.condensed)
    ∧ (convert_baseline_shift
        [some (.word "bogus"), some (.word "sub")] =
        [BaselineShift.baseline, BaselineShift.subscript]
      ∧ convert_baseline_shift [none, some (.word "sub")] =
        [BaselineShift.subscript]) := by
  refine ⟨⟨?_, ?_, by decide⟩, ?_, ?_⟩ <;> rfl

/-- C8 (amended): the five `FromValue` enumerations (`TextAnchor`,
`AlignmentBaseline`, `DominantBaseline`, `LengthAdjust`, `FontStyle`)
reject unknown tokens, treating the attribute as absent; by contrast
`conv_font_stretch` maps an unknown token at the nearest
attribute-carrying ancestor to `Normal`, and an unknown
`baseline-shift` keyword is mapped to `Baseline` rather than being
dropped. -/
theorem claim_C8_amended :
    (∀ s : String, s ∉ (["start", "middle", "end"] : List String) →
      parseTextAnchor s = none)
    ∧ (∀ s : String, s ∉ (["auto", "baseline", "before-edge",
        "text-before-edge", "middle", "central", "after-edge",
        "text-after-edge", "ideographic", "alphabetic", "hanging",
        "mathematical"] : List String) → parseAlignmentBaseline s = none)
    ∧ (∀ s : String, s ∉ (["auto", "use-script", "no-change", "reset-size",
        "ideographic", "alphabetic", "hanging", "mathematical", "central",
        "middle", "text-after-edge", "text-before-edge"] : List String) →
        parseDominantBaseline s = none)
    ∧ (∀ s : String, s ∉ (["spacing", "spacingAndGlyphs"] : List String) →
        parseLengthAdjust s = none)
    ∧ (∀ s : String, s ∉ (["normal", "italic", "oblique"] : List String) →
        parseFontStyle s = none)
    ∧ (∀ s : String, s ∉ (["narrower", "condensed", "ultra-condensed",
        "extra-condensed", "semi-condensed", "semi-expanded", "wider",
        "expanded", "extra-expanded", "ultra-expanded"] : List String) →
        stretchFromStr s = FontStretch.normal)
    ∧ (∀ (chain : List (Option String)) (v : String), parseFontStretchStrict v = none →
        conv_font_stretch (some v :: chain) = FontStretch.normal)
    ∧ (∀ s : String, s ∉ (["sub", "super"] : List String) →
        baselineShiftWord s = BaselineShift.baseline) := by
  refine ⟨?_, ?_, ?_, ?_, ?_, ?_, ?_, ?_⟩
  · intro s hs
    rw [parseTextAnchor.eq_def]
    split <;> simp_all
  · intro s hs
    rw [parseAlignmentBaseline.eq_def]
    split <;> simp_all
  · intro s hs
    rw [parseDominantBaseline.eq_def]
    split <;> simp_all
  · intro s hs
    rw [parseLengthAdjust.eq_def]
    split <;> simp_all
  · intro s hs
    rw [parseFontStyle.eq_def]
    split <;> simp_all
  · intro s hs
    rw [stretchFromStr.eq_def]
    split <;> simp_all
  · intro chain v hv
    rw [conv_font_stretch]
    rw [stretchFromStr.eq_def]
    rw [parseFontStretchStrict.eq_def] at hv
    split <;> simp_all
  · intro s hs
    rw [baselineShiftWord.eq_def]
    split <;> simp_all

/-- Witness for `claim_C8_amended`: an unknown token at every parser. -/
theorem claim_C8_amended_witness :
    parseTextAnchor "bogus" = none
    ∧ parseAlignmentBaseline "bogus" = none
    ∧ parseDominantBaseline "bogus" = none
    ∧ parseLengthAdjust "bogus" = none
    ∧ parseFontStyle "bogus" = none
    ∧ stretchFromStr "bogus" = FontStretch.normal
    ∧ conv_font_stretch [some "bogus", some "condensed"] = FontStretch.normal
    ∧ baselineShiftWord "bogus" = BaselineShift.baseline :=
  ⟨claim_C8_amended.1 "bogus" (by decide),
   claim_C8_amended.2.1 "bogus" (by decide),
   claim_C8_amended.2.2.1 "bogus" (by decide),
   claim_C8_amended.2.2.2.1 "bogus" (by decide),
   claim_C8_amended.2.2.2.2.1 "bogus" (by decide),
   claim_C8_amended.2.2.2.2.2.1 "bogus" (by decide),
   claim_C8_amended.2.2.2.2.2.2.1 [some "condensed"] "bogus" (by decide),
   claim_C8_amended.2.2.2.2.2.2.2 "bogus" (by decide)⟩

/-! ## Claim C3 — span tiling invariant

`spansChain p spans = some q` holds exactly when the spans are
consecutive half-open ranges `[p, ·)`, each with `start ≤ stop`,
jointly tiling `[p, q)` without gaps or overlaps. -/

/-- UTF-8 byte length of a text buffer. -/
def byteLen (s : List Char) : Nat := (s.map Char.utf8Size).sum

def spansChain : Nat → List TextSpan → Option Nat
  | pos, [] => some pos
  | pos, sp :: rest =>
    if sp.start = pos ∧ sp.start ≤ sp.stop then spansChain sp.stop rest
    else none

theorem spansChain_nil (pos : Nat) : spansChain pos [] = some pos := rfl

theorem spansChain_cons (pos : Nat) (sp : TextSpan) (rest : List TextSpan) :
    spansChain pos (sp :: rest) =
      if sp.start = pos ∧ sp.start ≤ sp.stop then spansChain sp.stop rest
      else none := rfl

theorem byteLen_append_char (s : List Char) (c : Char) :
    byteLen (s ++ [c]) = byteLen s + c.utf8Size := by
  simp [byteLen]

theorem spansChain_append (p : Nat) (l1 l2 : List TextSpan) :
    spansChain p (l1 ++ l2) =
      (spansChain p l1).bind (fun q => spansChain q l2) := by
  induction l1 generalizing p with
  | nil => simp [spansChain]
  | cons sp rest ih =>
    simp only [List.cons_append, spansChain]
    split
    · exact ih sp.stop
    · simp

/-- A tiling chain accounts for the byte budget: the widths of the
spans sum to the extent of the chain. -/
theorem spansChain_sum (l : List TextSpan) (p q : Nat)
    (h : spansChain p l = some q) :
    ((l.map (fun sp => sp.stop - sp.start)).sum = q - p) ∧ p ≤ q := by
  induction l generalizing p with
  | nil =>
    simp only [spansChain, Option.some.injEq] at h
    subst h
    simp
  | cons sp rest ih =>
    simp only [spansChain] at h
    split at h
    · next hc =>
      obtain ⟨hs, hle⟩ := hc
      obtain ⟨ihs, ihle⟩ := ih sp.stop h
      subst hs
      constructor
      · simp only [List.map_cons, List.sum_cons, ihs]
        omega
      · omega
    · exact Option.noConfusion h

theorem singleton_append_inj (l1 l2 : List α) (a b : α)
    (h : l1 ++ [a] = l2 ++ [b]) : l1 = l2 ∧ a = b := by
  have hlen : l1.length = l2.length := by
    have hl := congrArg List.length h
    simp only [List.length_append, List.length_cons, List.length_nil] at hl
    omega
  obtain ⟨h1, h2⟩ := List.append_inj h hlen
  simp only [List.cons.injEq, and_true] at h2
  exact ⟨h1, h2⟩

/-- The invariant carried through chunk collection: every accumulated
chunk's spans tile its text's byte range, every chunk has at least one
span, and `chunk_bytes_count` equals the byte length of the last
chunk's text. -/
def stateWF (st : IterState) : Prop :=
  (∀ ch ∈ st.chunks,
    spansChain 0 ch.spans = some (byteLen ch.text) ∧ ch.spans ≠ [])
  ∧ ∀ pre last, st.chunks = pre ++ [last] →
      st.chunkBytesCount = byteLen last.text

theorem processChar_wf (posList : List CharacterPosition) (span : TextSpan)
    (stp : IterState × Bool) (c : Char) (h : stateWF stp.1) :
    stateWF (processChar posList span stp c).1 := by
  obtain ⟨st, ins⟩ := stp
  obtain ⟨h1, h2⟩ := h
  simp only [processChar]
  split
  · -- a new chunk is pushed
    constructor
    · intro ch hch
      simp only at hch
      rcases List.mem_append.mp hch with hch | hch
      · exact h1 ch hch
      · simp only [List.mem_singleton] at hch
        subst hch
        refine ⟨?_, by simp⟩
        simp [spansChain, byteLen]
    · intro pre last hpl
      simp only at hpl
      obtain ⟨-, hlast⟩ := singleton_append_inj _ _ _ _ hpl.symm
      subst hlast
      simp [byteLen]
  · next hnotnew =>
    -- the chunk list is nonempty
    have hne : st.chunks ≠ [] := by
      intro hnil
      apply hnotnew
      simp [hnil]
    obtain ⟨pre, last, hdecomp⟩ :=
      (List.eq_nil_or_concat st.chunks).resolve_left hne
    rw [List.concat_eq_append] at hdecomp
    have hbytes : st.chunkBytesCount = byteLen last.text := h2 pre last hdecomp
    obtain ⟨hlchain, hlne⟩ := h1 last (by rw [hdecomp]; simp)
    split
    · -- a new span is appended to the last chunk
      constructor
      · intro ch hch
        simp only [hdecomp, modifyLast_append] at hch
        rcases List.mem_append.mp hch with hch | hch
        · exact h1 ch (by rw [hdecomp]; exact List.mem_append_left _ hch)
        · simp only [List.mem_singleton] at hch
          subst hch
          refine ⟨?_, by simp⟩
          simp only [spansChain_append, hlchain, Option.some_bind,
            byteLen_append_char]
          rw [spansChain_cons]
          rw [if_pos ⟨by simpa using hbytes, by simp⟩]
          simp [spansChain_nil, hbytes]
      · intro pre' last' hpl
        simp only [hdecomp, modifyLast_append] at hpl
        obtain ⟨-, hlast⟩ := singleton_append_inj _ _ _ _ hpl.symm
        subst hlast
        simp [byteLen_append_char, hbytes]
    · -- the last span of the last chunk is extended
      obtain ⟨spre, sp, hsdecomp⟩ :=
        (List.eq_nil_or_concat last.spans).resolve_left hlne
      rw [List.concat_eq_append] at hsdecomp
      have hchain2 := hlchain
      rw [hsdecomp, spansChain_append] at hchain2
      have hq : ∃ q, spansChain 0 spre = some q := by
        cases hq : spansChain 0 spre with
        | none => rw [hq] at hchain2; simp at hchain2
        | some q => exact ⟨q, rfl⟩
      obtain ⟨q, hq⟩ := hq
      rw [hq, Option.some_bind, spansChain_cons] at hchain2
      split at hchain2
      · next hcond =>
        simp only [spansChain, Option.some.injEq] at hchain2
        constructor
        · intro ch hch
          simp only [hdecomp, modifyLast_append] at hch
          rcases List.mem_append.mp hch with hch | hch
          · exact h1 ch (by rw [hdecomp]; exact List.mem_append_left _ hch)
          · simp only [List.mem_singleton] at hch
            subst hch
            refine ⟨?_, by rw [hsdecomp, modifyLast_append]; simp⟩
            simp only [hsdecomp, modifyLast_append, spansChain_append, hq,
              Option.some_bind, byteLen_append_char]
            rw [spansChain_cons]
            rw [if_pos ⟨hcond.1, by
              have := hcond.2; simp only at this ⊢; omega⟩]
            simp only [spansChain, Option.some.injEq]
            omega
        · intro pre' last' hpl
          simp only [hdecomp, modifyLast_append] at hpl
          obtain ⟨-, hlast⟩ := singleton_append_inj _ _ _ _ hpl.symm
          subst hlast
          simp [byteLen_append_char, hbytes]
      · exact Option.noConfusion hchain2

theorem foldChars_wf (posList : List CharacterPosition) (span : TextSpan)
    (s : List Char) (stp : IterState × Bool) (h : stateWF stp.1) :
    stateWF (s.foldl (processChar posList span) stp).1 := by
  induction s generalizing stp with
  | nil => exact h
  | cons c rest ih =>
    exact ih (processChar posList span stp c) (processChar_wf _ _ _ _ h)

theorem processText_wf (posList : List CharacterPosition)
    (parent : ElemData) (s : List Char) (st : IterState)
    (h : stateWF st) : stateWF (processText posList parent s st) := by
  unfold processText
  split
  · exact h
  · split
    · exact h
    · exact foldChars_wf _ _ s (st, true) h

mutual

theorem collectNode_wf (posList : List CharacterPosition)
    (parent : ElemData) (child : XNode) (st : IterState)
    (h : stateWF st) : stateWF (collectNode posList parent child st) := by
  match child with
  | .text s =>
    rw [collectNode]
    exact processText_wf posList parent s st h
  | .elem d cs =>
    rw [collectNode]
    split
    · split
      · exact h
      · cases d.flow with
        | none => exact h
        | some p =>
          have h1 := collectList_wf posList d cs
            { st with textFlow := TextFlow.path p, splitChunk := true } h
          exact h1
    · have h1 := collectList_wf posList d cs st h
      exact h1

theorem collectList_wf (posList : List CharacterPosition)
    (parent : ElemData) (children : List XNode) (st : IterState)
    (h : stateWF st) : stateWF (collectList posList parent children st) := by
  match children with
  | [] => rw [collectList]; exact h
  | c :: cs =>
    rw [collectList]
    exact collectList_wf posList parent cs _
      (collectNode_wf posList parent c st h)

end

/-- C3: every chunk produced by chunk collection has a nonempty span
list whose spans are in order with `start ≤ stop`, tile the byte range
`[0, byte_len(chunk.text))` without gaps or overlaps, and whose widths
sum to the byte length of the chunk's text. -/
theorem claim_C3_span_tiling (d : ElemData) (cs : List XNode)
    (posList : List CharacterPosition) (c : TextChunk)
    (hc : c ∈ collect_text_chunks d cs posList) :
    spansChain 0 c.spans = some (byteLen c.text)
    ∧ (c.spans.map (fun sp => sp.stop - sp.start)).sum = byteLen c.text
    ∧ c.spans ≠ [] := by
  have hwf : stateWF (collectList posList d cs
      { charsCount := 0, chunkBytesCount := 0, splitChunk := false
        textFlow := TextFlow.linear, chunks := [] }) :=
    collectList_wf posList d cs _ ⟨by simp, by simp⟩
  obtain ⟨hchain, hne⟩ := hwf.1 c hc
  have hsum := (spansChain_sum c.spans 0 (byteLen c.text) hchain).1
  simp only [Nat.sub_zero] at hsum
  exact ⟨hchain, hsum, hne⟩

/-- Scenario S3 tree: `<text>A<textPath href="#p">B</textPath>C</text>`
with a resolvable path. -/
def exS3Children : List XNode :=
  [.text ['A'],
   .elem { tag := Tag.textPath, flow := some 7 } [.text ['B']],
   .text ['C']]

/-- Witness for `claim_C3_span_tiling`: the middle chunk of the S3
scenario tiles its one-byte text with its single span. -/
theorem claim_C3_span_tiling_witness :
    spansChain 0 [{ start := 0, stop := 1, fontSize := 16 }] = some 1
    ∧ ([({ start := 0, stop := 1, fontSize := 16 } : TextSpan)].map
        (fun sp => sp.stop - sp.start)).sum = 1
    ∧ ([({ start := 0, stop := 1, fontSize := 16 } : TextSpan)] :
        List TextSpan) ≠ [] := by
  have h := claim_C3_span_tiling { tag := Tag.text } exS3Children
    (List.replicate 3 {})
    { x := none, y := none, spans := [{ start := 0, stop := 1, fontSize := 16 }]
      textFlow := TextFlow.path 7, text := ['B'] }
    (by decide)
  have hb : byteLen ['B'] = 1 := by decide
  rw [hb] at h
  simpa using h

/-! ## Claim C1 — chunk boundaries

When no characters are dropped, emitted characters coincide with
global character indices, so the index at which each chunk starts is
the prefix sum of the code-point counts of the chunks before it. -/

/-- Prefix sums of a list, starting at `a` (the start index of each
entry; the total is not included). -/
def prefixSums : List Nat → Nat → List Nat
  | [], _ => []
  | n :: ns, a => a :: prefixSums ns (a + n)

/-- The global character index at which each collected chunk starts
(meaningful when every character is emitted). -/
def chunkBoundaries (chunks : List TextChunk) : List Nat :=
  prefixSums (chunks.map (fun c => c.text.length)) 0

/-- Total code points held by the collected chunks. -/
def charsIn (chunks : List TextChunk) : Nat :=
  (chunks.map (fun c => c.text.length)).sum

/-- Does the resolved position list carry an absolute x or y at `i`? -/
def xyAt (posList : List CharacterPosition) (i : Nat) : Bool :=
  (posList.getD i {}).x.isSome || (posList.getD i {}).y.isSome

/-- The global character ranges `[start, stop)` of the `textPath`
sections among a run of direct children starting at offset `a`. -/
def sections : List XNode → Nat → List (Nat × Nat)
  | [], _ => []
  | .elem d cs :: rest, a =>
    if d.tag = Tag.textPath then
      (a, a + countCharsList cs) :: sections rest (a + countCharsList cs)
    else sections rest (a + countCharsNode (.elem d cs))
  | .text s :: rest, a => sections rest (a + s.length)

/-- Is `i` the first character of a `textPath` section or the first
character after one? -/
def secBoundary (secs : List (Nat × Nat)) (i : Nat) : Bool :=
  secs.any (fun p => i == p.1 || i == p.2)

mutual

/-- A subtree in which every element is visible with positive resolved
font size and no `textPath` occurs (so no character can be dropped and
no chunk split can be triggered from inside it). -/
def cleanNode : XNode → Bool
  | .text _ => true
  | .elem d cs =>
    d.visible && decide (0 < d.fontSize) && decide (d.tag ≠ Tag.textPath)
      && cleanList cs

def cleanList : List XNode → Bool
  | [] => true
  | c :: cs => cleanNode c && cleanList cs

end

/-- A direct child of the `<text>` root that drops no characters:
either a clean subtree, or a `textPath` whose flow resolves, which is
itself visible with positive font size and has clean content. -/
def rootChildOk : XNode → Bool
  | .text _ => true
  | .elem d cs =>
    if d.tag = Tag.textPath then
      d.flow.isSome && d.visible && decide (0 < d.fontSize) && cleanList cs
    else cleanNode (.elem d cs)

/-- The cleanliness hypothesis of the amended C1: the root is a
visible `<text>` with positive font size and every direct child is
`rootChildOk`. -/
def rootOk (d : ElemData) (cs : List XNode) : Bool :=
  decide (d.tag = Tag.text) && d.visible && decide (0 < d.fontSize)
    && cs.all rootChildOk

theorem prefixSums_append (l1 l2 : List Nat) (a : Nat) :
    prefixSums (l1 ++ l2) a = prefixSums l1 a ++ prefixSums l2 (a + l1.sum) := by
  induction l1 generalizing a with
  | nil => simp [prefixSums]
  | cons n ns ih =>
    simp only [List.cons_append, prefixSums, List.sum_cons]
    have h2 : prefixSums (ns ++ l2) (a + n) =
        prefixSums ns (a + n) ++ prefixSums l2 (a + (n + ns.sum)) :=
      (ih (a + n)).trans (by rw [show a + n + ns.sum = a + (n + ns.sum) by omega])
    exact congrArg (List.cons a) h2

theorem charsIn_append (l1 l2 : List TextChunk) :
    charsIn (l1 ++ l2) = charsIn l1 + charsIn l2 := by
  simp [charsIn]

theorem chunkBoundaries_append_singleton (l : List TextChunk) (c : TextChunk) :
    chunkBoundaries (l ++ [c]) = chunkBoundaries l ++ [charsIn l] := by
  unfold chunkBoundaries charsIn
  rw [List.map_append, prefixSums_append]
  simp [prefixSums]

theorem chunkBoundaries_modifyLast (l : List TextChunk)
    (f : TextChunk → TextChunk) :
    chunkBoundaries (modifyLast f l) = chunkBoundaries l := by
  rcases List.eq_nil_or_concat l with h | ⟨pre, last, h⟩
  · subst h; rfl
  · rw [List.concat_eq_append] at h
    subst h
    rw [modifyLast_append, chunkBoundaries_append_singleton,
      chunkBoundaries_append_singleton]

theorem charsIn_modifyLast_push (l : List TextChunk) (c : Char)
    (g : TextChunk → TextChunk)
    (hg : ∀ ch, (g ch).text = ch.text ++ [c]) (hne : l ≠ []) :
    charsIn (modifyLast g l) = charsIn l + 1 := by
  rcases List.eq_nil_or_concat l with h | ⟨pre, last, h⟩
  · exact absurd h hne
  · rw [List.concat_eq_append] at h
    subst h
    rw [modifyLast_append, charsIn_append, charsIn_append]
    simp only [charsIn, List.map_cons, List.map_nil, List.sum_cons,
      List.sum_nil, hg, List.length_append, List.length_cons, List.length_nil]
    omega

theorem listIsEmpty_decide (l : List α) : l.isEmpty = decide (l.length = 0) := by
  cases l <;> simp

/-- One character of a visible, positively-sized text node: the chars
count advances by one, the split flag clears, the text flow is kept,
the chunk list becomes nonempty, its char count tracks the chars
count, and a chunk boundary is recorded at exactly this index iff the
position has an absolute x or y, the split flag was pending, or no
chunk existed yet. -/
theorem processChar_step (posList : List CharacterPosition) (span : TextSpan)
    (st : IterState) (ins : Bool) (c : Char)
    (hinv : charsIn st.chunks = st.charsCount) :
    (processChar posList span (st, ins) c).1.charsCount = st.charsCount + 1
    ∧ charsIn (processChar posList span (st, ins) c).1.chunks =
        st.charsCount + 1
    ∧ (processChar posList span (st, ins) c).1.splitChunk = false
    ∧ (processChar posList span (st, ins) c).1.textFlow = st.textFlow
    ∧ (processChar posList span (st, ins) c).1.chunks.isEmpty = false
    ∧ chunkBoundaries (processChar posList span (st, ins) c).1.chunks =
        chunkBoundaries st.chunks ++
          (if xyAt posList st.charsCount || st.splitChunk
              || st.chunks.isEmpty then [st.charsCount] else []) := by
  simp only [processChar]
  split
  · next hcond =>
    have hcond2 : (xyAt posList st.charsCount || st.splitChunk
        || st.chunks.isEmpty) = true := by
      simp only [xyAt, Bool.or_eq_true] at hcond ⊢
      tauto
    rw [hcond2]
    refine ⟨rfl, ?_, rfl, rfl, by simp, ?_⟩
    · simp only [charsIn_append, hinv]
      simp [charsIn]
    · rw [chunkBoundaries_append_singleton, hinv]
      simp
  · next hcond =>
    simp only [Bool.or_eq_true, not_or, Bool.not_eq_true] at hcond
    obtain ⟨⟨⟨hx1, hy1⟩, hs⟩, he⟩ := hcond
    have hx : xyAt posList st.charsCount = false := by
      unfold xyAt
      rw [hx1, hy1]
      rfl
    have hne : st.chunks ≠ [] := by
      intro h
      rw [h] at he
      simp at he
    rw [hx, hs, he]
    simp only [Bool.or_self, Bool.false_or, if_false]
    split
    · refine ⟨rfl, ?_, rfl, rfl, ?_, ?_⟩
      · rw [charsIn_modifyLast_push _ c _ (fun ch => rfl) hne, hinv]
      · rcases List.eq_nil_or_concat st.chunks with h | ⟨pre, last, h⟩
        · exact absurd h hne
        · rw [List.concat_eq_append] at h
          rw [h, modifyLast_append]
          simp
      · rw [chunkBoundaries_modifyLast]
        simp
    · refine ⟨rfl, ?_, rfl, rfl, ?_, ?_⟩
      · rw [charsIn_modifyLast_push _ c _ (fun ch => rfl) hne, hinv]
      · rcases List.eq_nil_or_concat st.chunks with h | ⟨pre, last, h⟩
        · exact absurd h hne
        · rw [List.concat_eq_append] at h
          rw [h, modifyLast_append]
          simp
      · rw [chunkBoundaries_modifyLast]
        simp

theorem filter_range'_shift (posList : List CharacterPosition)
    (a n : Nat) (flags : Bool) :
    (List.range' (a + 1) n).filter
      (fun i => xyAt posList i || (i == a && flags)) =
    (List.range' (a + 1) n).filter (fun i => xyAt posList i) := by
  apply List.filter_congr
  intro i hi
  have h1 : a + 1 ≤ i := (List.mem_range'_1.mp hi).1
  have h2 : (i == a) = false := by
    simp only [beq_eq_false_iff_ne]
    omega
  rw [h2, Bool.false_and, Bool.or_false]

/-- A run of characters of one visible text node: the chars count
advances by the code-point count, the split flag survives only when
the run is empty, the text flow is preserved, and a chunk boundary is
recorded exactly at the indices with an absolute x or y plus, when the
split flag was pending or no chunk existed, at the first index. -/
theorem foldChars_step (posList : List CharacterPosition) (span : TextSpan)
    (s : List Char) (st : IterState) (ins : Bool)
    (hinv : charsIn st.chunks = st.charsCount) :
    (s.foldl (processChar posList span) (st, ins)).1.charsCount =
      st.charsCount + s.length
    ∧ charsIn (s.foldl (processChar posList span) (st, ins)).1.chunks =
        st.charsCount + s.length
    ∧ (s.foldl (processChar posList span) (st, ins)).1.splitChunk =
        (s.isEmpty && st.splitChunk)
    ∧ (s.foldl (processChar posList span) (st, ins)).1.textFlow = st.textFlow
    ∧ (s.foldl (processChar posList span) (st, ins)).1.chunks.isEmpty =
        (st.chunks.isEmpty && s.isEmpty)
    ∧ chunkBoundaries (s.foldl (processChar posList span) (st, ins)).1.chunks =
        chunkBoundaries st.chunks ++
          (List.range' st.charsCount s.length).filter
            (fun i => xyAt posList i ||
              (i == st.charsCount && (st.splitChunk || st.chunks.isEmpty))) := by
  induction s generalizing st ins with
  | nil =>
    refine ⟨rfl, by simpa using hinv, by simp, rfl, by simp, by simp⟩
  | cons c rest ih =>
    obtain ⟨s1, s2, s3, s4, s5, s6⟩ := processChar_step posList span st ins c hinv
    simp only [List.foldl_cons]
    have hpair : processChar posList span (st, ins) c =
        ((processChar posList span (st, ins) c).1,
         (processChar posList span (st, ins) c).2) := rfl
    rw [hpair]
    obtain ⟨i1, i2, i3, i4, i5, i6⟩ := ih (processChar posList span (st, ins) c).1
      (processChar posList span (st, ins) c).2 (by rw [s2, s1])
    rw [i1, i2, i3, i4, i5, i6, s1, s3, s4, s5, s6]
    simp only [List.length_cons, List.isEmpty_cons]
    refine ⟨by omega, by omega, by simp, trivial, by simp, ?_⟩
    rw [List.range'_succ, List.filter_cons]
    have hP : (xyAt posList st.charsCount ||
        (st.charsCount == st.charsCount
          && (st.splitChunk || st.chunks.isEmpty))) =
        (xyAt posList st.charsCount || st.splitChunk || st.chunks.isEmpty) := by
      simp [Bool.or_assoc]
    rw [hP, filter_range'_shift]
    have hshift : (List.range' (st.charsCount + 1) rest.length).filter
        (fun i => xyAt posList i || (i == st.charsCount + 1 && (false || false))) =
        (List.range' (st.charsCount + 1) rest.length).filter
          (fun i => xyAt posList i) := by
      simp
    rw [hshift]
    cases hcnd : (xyAt posList st.charsCount || st.splitChunk
        || st.chunks.isEmpty) <;> simp

theorem processText_step (posList : List CharacterPosition)
    (parent : ElemData) (s : List Char) (st : IterState)
    (hv : parent.visible = true) (hf : 0 < parent.fontSize)
    (hinv : charsIn st.chunks = st.charsCount) :
    (processText posList parent s st).charsCount = st.charsCount + s.length
    ∧ charsIn (processText posList parent s st).chunks =
        st.charsCount + s.length
    ∧ (processText posList parent s st).splitChunk =
        (s.isEmpty && st.splitChunk)
    ∧ (processText posList parent s st).chunks.isEmpty =
        (st.chunks.isEmpty && s.isEmpty)
    ∧ chunkBoundaries (processText posList parent s st).chunks =
        chunkBoundaries st.chunks ++
          (List.range' st.charsCount s.length).filter
            (fun i => xyAt posList i ||
              (i == st.charsCount && (st.splitChunk || st.chunks.isEmpty))) := by
  unfold processText
  rw [hv]
  rw [if_neg (by simp)]
  rw [if_neg (by omega)]
  obtain ⟨f1, f2, f3, f4, f5, f6⟩ := foldChars_step posList
    { start := 0, stop := 0, fontSize := parent.fontSize } s st true hinv
  exact ⟨f1, f2, f3, f5, f6⟩

theorem filter_range'_past (posList : List CharacterPosition)
    (a s n : Nat) (flags : Bool) (h : a < s) :
    (List.range' s n).filter
      (fun i => xyAt posList i || (i == a && flags)) =
    (List.range' s n).filter (fun i => xyAt posList i) := by
  apply List.filter_congr
  intro i hi
  have h1 : s ≤ i := (List.mem_range'_1.mp hi).1
  have h2 : (i == a) = false := by
    simp only [beq_eq_false_iff_ne]
    omega
  rw [h2, Bool.false_and, Bool.or_false]

theorem decide_add_eq_zero (n1 n2 : Nat) :
    decide (n1 + n2 = 0) = (decide (n1 = 0) && decide (n2 = 0)) := by
  by_cases h1 : n1 = 0 <;> by_cases h2 : n2 = 0 <;>
    simp [h1, h2]

theorem bool_flags_merge (x s e : Bool) :
    ((x && s) || (e && x)) = (x && (s || e)) := by
  cases x <;> cases s <;> cases e <;> rfl

/-- Splitting a character run: boundaries of `[a, a + n1 + n2)` under
entry flags decompose into those of `[a, a + n1)` under the same flags
and those of `[a + n1, a + n1 + n2)` under the flags surviving an
`n1`-character run. -/
theorem boundary_filter_comp (posList : List CharacterPosition)
    (a n1 n2 : Nat) (flags : Bool) :
    (List.range' a (n1 + n2)).filter
      (fun i => xyAt posList i || (i == a && flags)) =
    (List.range' a n1).filter (fun i => xyAt posList i || (i == a && flags))
    ++ (List.range' (a + n1) n2).filter
        (fun i => xyAt posList i ||
          (i == a + n1 && (decide (n1 = 0) && flags))) := by
  rcases Nat.eq_zero_or_pos n1 with h | h
  · subst h
    simp
  · have hd : decide (n1 = 0) = false := by
      simp only [decide_eq_false_iff_not]
      omega
    rw [hd]
    have hr : List.range' a (n1 + n2) =
        List.range' a n1 ++ List.range' (a + n1) n2 := by
      have hap := List.range'_append a n1 n2 1
      simp only [one_mul] at hap
      rw [Nat.add_comm n1 n2]
      exact hap.symm
    rw [hr, List.filter_append]
    congr 1
    rw [filter_range'_past posList a (a + n1) n2 flags (by omega)]
    apply List.filter_congr
    intro i hi
    simp

mutual

/-- A clean (textPath-free, fully visible, positively sized) subtree
under a visible, positively sized parent consumes exactly its
code-point count, keeps the chunk char count aligned, lets the split
flag survive only when it holds no characters, and contributes a chunk
boundary exactly at its indices carrying an absolute x or y — plus its
first index when the split flag was pending or no chunk existed. -/
theorem collectNode_clean (posList : List CharacterPosition)
    (parent : ElemData) (child : XNode) (st : IterState)
    (hv : parent.visible = true) (hf : 0 < parent.fontSize)
    (hc : cleanNode child = true)
    (hinv : charsIn st.chunks = st.charsCount) :
    (collectNode posList parent child st).charsCount =
      st.charsCount + countCharsNode child
    ∧ charsIn (collectNode posList parent child st).chunks =
        st.charsCount + countCharsNode child
    ∧ (collectNode posList parent child st).splitChunk =
        (decide (countCharsNode child = 0) && st.splitChunk)
    ∧ (collectNode posList parent child st).chunks.isEmpty =
        (st.chunks.isEmpty && decide (countCharsNode child = 0))
    ∧ chunkBoundaries (collectNode posList parent child st).chunks =
        chunkBoundaries st.chunks ++
          (List.range' st.charsCount (countCharsNode child)).filter
            (fun i => xyAt posList i ||
              (i == st.charsCount &&
                (st.splitChunk || st.chunks.isEmpty))) := by
  match child with
  | .text s =>
    rw [collectNode]
    obtain ⟨p1, p2, p3, p4, p5⟩ := processText_step posList parent s st hv hf hinv
    rw [show s.isEmpty = decide (s.length = 0) from listIsEmpty_decide s]
      at p3 p4
    rw [countCharsNode]
    exact ⟨p1, p2, p3, p4, p5⟩
  | .elem d cs =>
    simp only [cleanNode, Bool.and_eq_true, decide_eq_true_eq] at hc
    obtain ⟨⟨⟨hdv, hdf⟩, hdtag⟩, hdcs⟩ := hc
    rw [collectNode, if_neg hdtag]
    obtain ⟨l1, l2, l3, l4, l5⟩ :=
      collectList_clean posList d cs st hdv hdf hdcs hinv
    rw [countCharsNode]
    exact ⟨l1, l2, l3, l4, l5⟩

theorem collectList_clean (posList : List CharacterPosition)
    (parent : ElemData) (children : List XNode) (st : IterState)
    (hv : parent.visible = true) (hf : 0 < parent.fontSize)
    (hc : cleanList children = true)
    (hinv : charsIn st.chunks = st.charsCount) :
    (collectList posList parent children st).charsCount =
      st.charsCount + countCharsList children
    ∧ charsIn (collectList posList parent children st).chunks =
        st.charsCount + countCharsList children
    ∧ (collectList posList parent children st).splitChunk =
        (decide (countCharsList children = 0) && st.splitChunk)
    ∧ (collectList posList parent children st).chunks.isEmpty =
        (st.chunks.isEmpty && decide (countCharsList children = 0))
    ∧ chunkBoundaries (collectList posList parent children st).chunks =
        chunkBoundaries st.chunks ++
          (List.range' st.charsCount (countCharsList children)).filter
            (fun i => xyAt posList i ||
              (i == st.charsCount &&
                (st.splitChunk || st.chunks.isEmpty))) := by
  match children with
  | [] =>
    rw [collectList, countCharsList]
    refine ⟨by omega, by omega, by simp, by simp, by simp⟩
  | child :: rest =>
    simp only [cleanList, Bool.and_eq_true] at hc
    obtain ⟨hc1, hc2⟩ := hc
    rw [collectList, countCharsList]
    obtain ⟨n1, n2, n3, n4, n5⟩ :=
      collectNode_clean posList parent child st hv hf hc1 hinv
    obtain ⟨l1, l2, l3, l4, l5⟩ :=
      collectList_clean posList parent rest
        (collectNode posList parent child st) hv hf hc2 (by rw [n2, n1])
    rw [l1, l2, l3, l4, l5, n1, n3, n4, n5]
    refine ⟨by omega, by omega, ?_, ?_, ?_⟩
    · rw [decide_add_eq_zero]
      simp [Bool.and_assoc, Bool.and_comm, Bool.and_left_comm]
    · rw [decide_add_eq_zero]
      simp [Bool.and_assoc, Bool.and_comm, Bool.and_left_comm]
    · have hflags : ((decide (countCharsNode child = 0) && st.splitChunk)
          || (st.chunks.isEmpty && decide (countCharsNode child = 0))) =
          (decide (countCharsNode child = 0)
            && (st.splitChunk || st.chunks.isEmpty)) :=
        bool_flags_merge _ _ _
      rw [hflags]
      rw [List.append_assoc]
      congr 1
      exact (boundary_filter_comp posList st.charsCount
        (countCharsNode child) (countCharsList rest)
        (st.splitChunk || st.chunks.isEmpty)).symm

end

/-- Every `textPath` section among children starting at offset `a`
lies at or beyond `a`. -/
theorem sections_lb (cs : List XNode) (a : Nat) :
    ∀ p ∈ sections cs a, a ≤ p.1 ∧ p.1 ≤ p.2 := by
  induction cs generalizing a with
  | nil =>
    intro p hp
    rw [sections] at hp
    simp at hp
  | cons c rest ih =>
    match c with
    | .text s =>
      intro p hp
      rw [sections] at hp
      have := ih (a + s.length) p hp
      omega
    | .elem d cs' =>
      intro p hp
      rw [sections] at hp
      split at hp
      · rcases List.mem_cons.mp hp with h | h
        · subst h
          refine ⟨le_refl a, by simp⟩
        · have := ih (a + countCharsList cs') p h
          omega
      · have := ih (a + countCharsNode (.elem d cs')) p hp
        omega

theorem secBoundary_cons (x y : Nat) (secs : List (Nat × Nat)) (i : Nat) :
    secBoundary ((x, y) :: secs) i = ((i == x || i == y) || secBoundary secs i) :=
  rfl

theorem secBoundary_false_of_lt (secs : List (Nat × Nat)) (i b : Nat)
    (hs : ∀ p ∈ secs, b ≤ p.1 ∧ p.1 ≤ p.2) (hi : i < b) :
    secBoundary secs i = false := by
  unfold secBoundary
  rw [List.any_eq_false]
  intro p hp
  obtain ⟨h1, h2⟩ := hs p hp
  intro hcontra
  simp only [Bool.or_eq_true, beq_iff_eq] at hcontra
  omega

/-- `boundary_filter_comp` in the presence of later sections: the
section points all lie at or beyond the cut. -/
theorem boundary_filter_comp_sec (posList : List CharacterPosition)
    (a n1 n2 : Nat) (flags : Bool) (secs : List (Nat × Nat))
    (hs : ∀ p ∈ secs, a + n1 ≤ p.1 ∧ p.1 ≤ p.2) :
    (List.range' a (n1 + n2)).filter
      (fun i => xyAt posList i || (i == a && flags) || secBoundary secs i) =
    (List.range' a n1).filter (fun i => xyAt posList i || (i == a && flags))
    ++ (List.range' (a + n1) n2).filter
        (fun i => xyAt posList i || (i == a + n1 && (decide (n1 = 0) && flags))
          || secBoundary secs i) := by
  rcases Nat.eq_zero_or_pos n1 with h | h
  · subst h
    simp
  · have hd : decide (n1 = 0) = false := by
      simp only [decide_eq_false_iff_not]
      omega
    rw [hd]
    have hap := List.range'_append a n1 n2 1
    simp only [one_mul] at hap
    rw [Nat.add_comm n1 n2, ← hap, List.filter_append]
    congr 1
    · apply List.filter_congr
      intro i hi
      obtain ⟨hi1, hi2⟩ := List.mem_range'_1.mp hi
      rw [secBoundary_false_of_lt secs i (a + n1) hs (by omega)]
      simp
    · apply List.filter_congr
      intro i hi
      obtain ⟨hi1, hi2⟩ := List.mem_range'_1.mp hi
      have h2 : (i == a) = false := by
        simp only [beq_eq_false_iff_ne]
        omega
      rw [h2]
      simp

/-- The textPath variant of the composition: the section `(a, a + m)`
accounts both for the boundary at the section's first character and
for the boundary right after it. -/
theorem boundary_filter_comp_tp (posList : List CharacterPosition)
    (a m n2 : Nat) (flags : Bool) (secs : List (Nat × Nat))
    (hs : ∀ q ∈ secs, a + m ≤ q.1 ∧ q.1 ≤ q.2) :
    (List.range' a (m + n2)).filter
      (fun i => xyAt posList i || (i == a && flags)
        || secBoundary ((a, a + m) :: secs) i) =
    (List.range' a m).filter (fun i => xyAt posList i || (i == a))
    ++ (List.range' (a + m) n2).filter
        (fun i => xyAt posList i || (i == a + m)
          || secBoundary secs i) := by
  have hap := List.range'_append a m n2 1
  simp only [one_mul] at hap
  rw [Nat.add_comm m n2, ← hap, List.filter_append]
  congr 1
  · apply List.filter_congr
    intro i hi
    obtain ⟨hi1, hi2⟩ := List.mem_range'_1.mp hi
    rw [secBoundary_cons]
    rw [secBoundary_false_of_lt secs i (a + m) hs (by omega)]
    have hm : (i == a + m) = false := by
      simp only [beq_eq_false_iff_ne]
      omega
    rw [hm]
    cases hia : (i == a) <;> cases xyAt posList i <;> cases flags <;> simp
  · apply List.filter_congr
    intro i hi
    obtain ⟨hi1, hi2⟩ := List.mem_range'_1.mp hi
    rw [secBoundary_cons]
    rcases Nat.eq_zero_or_pos m with hm | hm
    · subst hm
      simp only [Nat.add_zero] at *
      cases hia : (i == a) <;> cases xyAt posList i <;> cases flags <;>
        cases hsec : secBoundary secs i <;> simp
    · have ha : (i == a) = false := by
        simp only [beq_eq_false_iff_ne]
        omega
      rw [ha]
      cases him : (i == a + m) <;> cases xyAt posList i <;>
        cases hsec : secBoundary secs i <;> simp

/-- The root-level run over the direct children of the `<text>`
element, possibly including valid `textPath` children: chunk
boundaries appear exactly at indices with an absolute x or y, at the
run's first index when the split flag was pending or no chunk existed,
and at the first index of and the first index after every `textPath`
section. -/
theorem collectRoot_clean (posList : List CharacterPosition)
    (rootD : ElemData) (children : List XNode) (st : IterState)
    (htag : rootD.tag = Tag.text) (hv : rootD.visible = true)
    (hf : 0 < rootD.fontSize)
    (hok : children.all rootChildOk = true)
    (hinv : charsIn st.chunks = st.charsCount) :
    (collectList posList rootD children st).charsCount =
      st.charsCount + countCharsList children
    ∧ charsIn (collectList posList rootD children st).chunks =
        st.charsCount + countCharsList children
    ∧ chunkBoundaries (collectList posList rootD children st).chunks =
        chunkBoundaries st.chunks ++
          (List.range' st.charsCount (countCharsList children)).filter
            (fun i => xyAt posList i ||
              (i == st.charsCount && (st.splitChunk || st.chunks.isEmpty)) ||
              secBoundary (sections children st.charsCount) i) := by
  induction children generalizing st with
  | nil =>
    rw [collectList, countCharsList]
    refine ⟨by omega, by omega, by simp⟩
  | cons child rest ih =>
    simp only [List.all_cons, Bool.and_eq_true] at hok
    obtain ⟨hok1, hok2⟩ := hok
    rw [collectList, countCharsList]
    match child with
    | .text s =>
      rw [collectNode]
      obtain ⟨p1, p2, p3, p4, p5⟩ :=
        processText_step posList rootD s st hv hf hinv
      obtain ⟨i1, i2, i3⟩ := ih (processText posList rootD s st) hok2
        (by rw [p2, p1])
      rw [i1, i2, i3, p1, p3, p4, p5, countCharsNode]
      refine ⟨by omega, by omega, ?_⟩
      rw [sections]
      rw [bool_flags_merge s.isEmpty st.splitChunk st.chunks.isEmpty]
      rw [show s.isEmpty = decide (s.length = 0) from listIsEmpty_decide s]
      rw [List.append_assoc]
      congr 1
      exact (boundary_filter_comp_sec posList st.charsCount s.length
        (countCharsList rest) (st.splitChunk || st.chunks.isEmpty)
        (sections rest (st.charsCount + s.length))
        (sections_lb rest (st.charsCount + s.length))).symm
    | .elem d cs' =>
      rw [rootChildOk] at hok1
      by_cases hdt : d.tag = Tag.textPath
      · -- a valid textPath child
        rw [if_pos hdt] at hok1
        simp only [Bool.and_eq_true, Option.isSome_iff_exists,
          decide_eq_true_eq] at hok1
        obtain ⟨⟨⟨⟨p, hflow⟩, hdv⟩, hdf⟩, hcln⟩ := hok1
        rw [collectNode, if_pos hdt, if_neg (by simp [htag])]
        simp only [hflow]
        obtain ⟨l1, l2, l3, l4, l5⟩ := collectList_clean posList d cs'
          { st with textFlow := TextFlow.path p, splitChunk := true }
          hdv hdf hcln hinv
        obtain ⟨i1, i2, i3⟩ := ih
          { collectList posList d cs'
              { st with textFlow := TextFlow.path p, splitChunk := true } with
            textFlow := TextFlow.linear, splitChunk := true } hok2
          (by simp only; rw [l2, l1])
        simp only at i1 i2 i3 l1 l2 l3 l4 l5 ⊢
        rw [i1, i2, i3, l1, l4, l5, countCharsNode]
        refine ⟨by omega, by omega, ?_⟩
        rw [sections, if_pos hdt]
        have hF1 : (List.range' st.charsCount (countCharsList cs')).filter
            (fun i => xyAt posList i ||
              (i == st.charsCount && (true || st.chunks.isEmpty))) =
            (List.range' st.charsCount (countCharsList cs')).filter
              (fun i => xyAt posList i || (i == st.charsCount)) := by
          apply List.filter_congr
          intro i _
          simp
        have hF2 : (List.range' (st.charsCount + countCharsList cs')
            (countCharsList rest)).filter
            (fun i => xyAt posList i ||
              (i == st.charsCount + countCharsList cs' &&
                (true || (st.chunks.isEmpty && decide (countCharsList cs' = 0))))
              || secBoundary (sections rest
                  (st.charsCount + countCharsList cs')) i) =
            (List.range' (st.charsCount + countCharsList cs')
              (countCharsList rest)).filter
              (fun i => xyAt posList i ||
                (i == st.charsCount + countCharsList cs')
                || secBoundary (sections rest
                    (st.charsCount + countCharsList cs')) i) := by
          apply List.filter_congr
          intro i _
          simp
        rw [hF1, hF2, List.append_assoc]
        congr 1
        exact (boundary_filter_comp_tp posList st.charsCount
          (countCharsList cs') (countCharsList rest)
          (st.splitChunk || st.chunks.isEmpty)
          (sections rest (st.charsCount + countCharsList cs'))
          (sections_lb rest (st.charsCount + countCharsList cs'))).symm
      · -- a clean non-textPath element child
        rw [if_neg hdt] at hok1
        have hcn : cleanNode (.elem d cs') = true := hok1
        rw [collectNode, if_neg hdt]
        have hclean := collectNode_clean posList rootD (.elem d cs') st
          hv hf hcn hinv
        rw [collectNode, if_neg hdt] at hclean
        obtain ⟨n1, n2, n3, n4, n5⟩ := hclean
        obtain ⟨i1, i2, i3⟩ := ih
          { collectList posList d cs' st with textFlow := TextFlow.linear }
          hok2 (by simp only; rw [n2, n1])
        simp only at i1 i2 i3 n1 n2 n3 n4 n5 ⊢
        rw [i1, i2, i3, n1, n3, n4, n5, countCharsNode]
        refine ⟨by omega, by omega, ?_⟩
        rw [sections, if_neg hdt]
        rw [bool_flags_merge (decide (countCharsList cs' = 0))
          st.splitChunk st.chunks.isEmpty]
        rw [List.append_assoc]
        congr 1
        rw [countCharsNode]
        exact (boundary_filter_comp_sec posList st.charsCount
          (countCharsList cs') (countCharsList rest)
          (st.splitChunk || st.chunks.isEmpty)
          (sections rest (st.charsCount + countCharsList cs'))
          (sections_lb rest (st.charsCount + countCharsList cs'))).symm

/-- Example falsifying C1 as stated:
`<text><tspan font-size="0">a</tspan>b</text>` — the first character is
dropped (non-positive font size), so its index carries no chunk
boundary even though the claim requires one at index 0, and the single
produced chunk starts at global index 1 even though the position list
has no absolute x or y there, 1 ≠ 0, and there is no `textPath`. -/
def exC1Children : List XNode :=
  [.elem { tag := Tag.tspan, fontSize := 0 } [.text ['a']], .text ['b']]

/-- Counterexample to C1: on `exC1Children` the total is 2 characters,
the resolved position list is all-`None`, there are no `textPath`
sections — so the claimed boundary set is `{0}` — yet collection
produces a single chunk holding only the second character `b`: no
chunk contains character 0, and a chunk is started at character 1. -/
theorem claim_C1_counterexample :
    countCharsList exC1Children = 2
    ∧ resolve_positions_list (.elem { tag := Tag.text } exC1Children) =
        List.replicate 2 {}
    ∧ sections exC1Children 0 = []
    ∧ collect_text_chunks { tag := Tag.text } exC1Children
        (resolve_positions_list (.elem { tag := Tag.text } exC1Children)) =
      [{ x := none, y := none
         spans := [{ start := 0, stop := 1, fontSize := 16 }]
         textFlow := TextFlow.linear, text := ['b'] }] := by
  refine ⟨rfl, by decide, rfl, by decide⟩

/-- C1 (amended): restricted to `<text>` elements in which no
character is dropped — every element visible with positive resolved
font size and every `textPath` a valid direct child of the root
(`rootOk`) — a chunk boundary exists at character index `i` iff the
position list has an absolute x or y at `i`, or `i = 0`, or `i` is the
first character of a `textPath` section or the first character after
one.  (In general a new chunk is started exactly for emitted
characters with an absolute x or y, a pending `textPath` split flag,
or an empty chunk accumulator, so dropped characters carry no boundary
and the first emitted character starts a chunk even at nonzero
index.) -/
theorem claim_C1_chunk_boundaries (d : ElemData) (cs : List XNode)
    (posList : List CharacterPosition) (hok : rootOk d cs = true) :
    chunkBoundaries (collect_text_chunks d cs posList) =
      (List.range (countCharsList cs)).filter
        (fun i => xyAt posList i || i == 0
          || secBoundary (sections cs 0) i) := by
  simp only [rootOk, Bool.and_eq_true, decide_eq_true_eq] at hok
  obtain ⟨⟨⟨htag, hv⟩, hf⟩, hall⟩ := hok
  unfold collect_text_chunks
  obtain ⟨r1, r2, r3⟩ := collectRoot_clean posList d cs
    { charsCount := 0, chunkBytesCount := 0, splitChunk := false
      textFlow := TextFlow.linear, chunks := [] } htag hv hf hall
    (by simp [charsIn])
  rw [r3]
  simp only [chunkBoundaries, charsIn, prefixSums, List.map_nil,
    List.nil_append]
  rw [List.range_eq_range']
  apply List.filter_congr
  intro i _
  simp

/-- Witness for `claim_C1_chunk_boundaries`: the S3 scenario — one
character, a one-character `textPath`, one character — yields chunk
boundaries at 0, 1 (section start) and 2 (section end). -/
theorem claim_C1_chunk_boundaries_witness :
    chunkBoundaries (collect_text_chunks { tag := Tag.text } exS3Children
      (List.replicate 3 {})) = [0, 1, 2] := by
  rw [claim_C1_chunk_boundaries { tag := Tag.text } exS3Children
    (List.replicate 3 {}) (by decide)]
  decide

/-- Witness for `claim_C10_utf16_odd_byte` with an identity UTF-16
stub: a BOM plus a dangling byte decodes like the bare BOM. -/
theorem claim_C10_utf16_odd_byte_witness :
    string_from_utf16_bytes
      ({ gunzip := fun _ => none, fromUtf16 := fun v => some v
         fromStr := fun _ => Except.ok 0 } : NormalizerOps Nat)
      [0xFF, 0xFE, 0x41] =
      string_from_utf16_bytes
        ({ gunzip := fun _ => none, fromUtf16 := fun v => some v
           fromStr := fun _ => Except.ok 0 } : NormalizerOps Nat)
        [0xFF, 0xFE] :=
  (claim_C10_utf16_odd_byte _ rfl [0xFF, 0xFE] 0x41 (by decide)).1

end Resvg
